import Mathlib

/-!
# Verification of the heckle static-site generator core (src/heckle.js)

Shallow embedding of the content/template composition engine of heckle:
front-matter splitting (`readContents`), post collection (`readPosts`),
tag indexing (`gatherTags`), template substitution (`fillTemplate` /
`getURL`), layout resolution (`getLayout`), context merging
(`partialTemplate`) and the recursive source-tree walk of `generate`.

Strings are modelled as `List Char` (JS strings are immutable sequences of
code units; all data involved here is plain text).  External collaborators
(the YAML parser, the Markdown renderer, Mold's `escapeHTML`, `dateformat`,
JS `Date` millisecond arithmetic and JS stringification of non-string
values) are black boxes per the spec and are passed in as an explicit
`Externals` record.
-/

/-- JS strings, modelled as lists of characters. -/
abbrev Str := List Char

/-- Convert a Lean string literal to the `Str` model. -/
def chars (s : String) : Str := s.data

/-- Dynamic JS values as they occur in heckle's post / document records:
strings, numbers, booleans, `Date` objects (kept as the constructor triple
`new Date(year, month0, day)`, unevaluated), arrays, and null. -/
inductive PVal where
  | str (s : Str)
  | num (n : Int)
  | bool (b : Bool)
  | date (year month0 day : Int)
  | list (xs : List PVal)
  | null

/-- A JS object used as a record: an insertion-ordered association list of
own enumerable properties (string key, value). -/
abbrev JsRecord := List (String × PVal)

/-- Property read `o[k]`: first binding of the key, `none` = undefined. -/
def lookupField (r : JsRecord) (k : String) : Option PVal :=
  match r with
  | [] => none
  | (k₀, v₀) :: rest => if k₀ = k then some v₀ else lookupField rest k

/-- Property write `o[k] = v`: overwrite in place if the key exists
(keeping its position in enumeration order), else append. -/
def setField (r : JsRecord) (k : String) (v : PVal) : JsRecord :=
  match r with
  | [] => [(k, v)]
  | (k₀, v₀) :: rest =>
      if k₀ = k then (k₀, v) :: rest else (k₀, v₀) :: setField rest k v

/-- JS truthiness of a property value (`none` = undefined = falsy;
`""`, `0`, `false`, `null` falsy; arrays and `Date`s always truthy). -/
def truthy : Option PVal → Bool
  | none => false
  | some (.str s) => !s.isEmpty
  | some (.num n) => n != 0
  | some (.bool b) => b
  | some (.date _ _ _) => true
  | some (.list _) => true
  | some .null => false

/-- Is `pat` a prefix of `s`? (decidable, used to model regex literals). -/
def strPrefix (pat s : Str) : Bool :=
  List.isPrefixOf pat s

/-- Index of the first occurrence of `pat` as a substring of `s`
(`String.prototype.search` with a literal pattern): `none` if absent. -/
def searchSub (pat : Str) : Str → Option Nat
  | [] => if pat = [] then some 0 else none
  | c :: rest =>
      if strPrefix pat (c :: rest) then some 0
      else (searchSub pat rest).map (· + 1)

/-- The external black boxes heckle composes with, per the spec:
`yamlLoad` is `js-yaml`'s loader restricted to string-valued mappings
(`none` models a YAML result that is null/undefined, so that
`yaml.load(...) || {}` yields the empty record); `renderMarkdown` is the
pluggable Markdown renderer; `escapeHTML` is `Mold.prototype.escapeHTML`;
`pvToString` is JS string coercion of a dynamic value (used when a
non-string post field is substituted into a template); `dateMs` is the
epoch-millisecond value of `new Date(y, m0, d)` (timezone dependent). -/
structure Externals where
  yamlLoad : Str → Option JsRecord
  renderMarkdown : Str → Str
  escapeHTML : Str → Str
  pvToString : PVal → Str
  dateMs : Int → Int → Int → Int

/-! ## Front-matter splitter: `readContents` (src/heckle.js lines 21-31)

```js
function readContents(contents) {
  if (/^---\n/.test(contents)) {
    var end = contents.search(/\n---\n/);
    if (end != -1)
      return {
        frontMatter: yaml.load(contents.slice(4, end + 1)) || {},
        mainText: contents.slice(end + 5)
      };
  }
  return {frontMatter: null, mainText: contents};
}
```
-/

/-- Result of the splitter: `frontMatter = none` models the JS `null`. -/
structure Contents where
  frontMatter : Option JsRecord
  mainText : Str

/-- `readContents`, with the YAML loader passed in as a black box. -/
def readContents (yamlLoad : Str → Option JsRecord) (contents : Str) : Contents :=
  if strPrefix (chars "---\n") contents then
    match searchSub (chars "\n---\n") contents with
    | some e =>
        { frontMatter := some ((yamlLoad ((contents.drop 4).take (e + 1 - 4))).getD [])
          mainText := contents.drop (e + 5) }
    | none => { frontMatter := none, mainText := contents }
  else { frontMatter := none, mainText := contents }

/-- Spec-side description of "a recognized header block exists": the text
opens with a three-dash delimiter line at the very start, and a closing
three-dash delimiter line (`\n---\n`) occurs somewhere in the text. -/
def hasHeaderBlock (contents : Str) : Prop :=
  strPrefix (chars "---\n") contents = true ∧
    ∃ pre post, contents = pre ++ chars "\n---\n" ++ post

/-- `searchSub` finds an index exactly when the pattern occurs. -/
theorem searchSub_isSome_iff (pat s : Str) :
    (searchSub pat s).isSome ↔ ∃ pre post, s = pre ++ pat ++ post := by
  induction s with
  | nil =>
      simp only [searchSub]
      constructor
      · intro h
        by_cases hp : pat = []
        · exact ⟨[], [], by simp [hp]⟩
        · simp [hp] at h
      · rintro ⟨pre, post, h⟩
        have hlen := congrArg List.length h
        simp only [List.length_nil, List.length_append] at hlen
        have hpat : pat = [] := List.length_eq_zero.mp (by omega)
        simp [hpat]
  | cons c rest ih =>
      simp only [searchSub]
      by_cases hp : strPrefix pat (c :: rest)
      · simp only [hp, if_true, Option.isSome_some, true_iff]
        rcases List.isPrefixOf_iff_prefix.mp hp with ⟨post, hpost⟩
        exact ⟨[], post, by simpa using hpost.symm⟩
      · have hmap : (Option.map (fun x => x + 1) (searchSub pat rest)).isSome
            = (searchSub pat rest).isSome := by
          cases searchSub pat rest <;> rfl
        simp only [hp, Bool.false_eq_true, if_false, hmap]
        rw [ih]
        constructor
        · rintro ⟨pre, post, h⟩
          exact ⟨c :: pre, post, by simp [h]⟩
        · rintro ⟨pre, post, h⟩
          cases pre with
          | nil =>
              exfalso
              apply hp
              simp only [List.nil_append] at h
              exact List.isPrefixOf_iff_prefix.mpr ⟨post, by simp [h]⟩
          | cons d pre' =>
              refine ⟨pre', post, ?_⟩
              simpa using congrArg List.tail h

/-- C1: the front-matter splitter returns `metadata = null` iff no
recognized header block exists (opening `---` line absent at the very
start, or closing `\n---\n` delimiter absent), in which case the body is
the entire original text unchanged; when both delimiters are present the
returned metadata is non-null (a null-parsing block is defaulted to the
empty mapping by `|| {}`). -/
theorem readContents_metadata_null_iff (yamlLoad : Str → Option JsRecord)
    (contents : Str) :
    ((readContents yamlLoad contents).frontMatter = none ↔
      ¬ hasHeaderBlock contents) ∧
    ((readContents yamlLoad contents).frontMatter = none →
      (readContents yamlLoad contents).mainText = contents) := by
  have hiff : hasHeaderBlock contents ↔
      (strPrefix (chars "---\n") contents = true ∧
        (searchSub (chars "\n---\n") contents).isSome) := by
    unfold hasHeaderBlock
    constructor
    · rintro ⟨h1, hex⟩; exact ⟨h1, (searchSub_isSome_iff _ _).mpr hex⟩
    · rintro ⟨h1, hs⟩; exact ⟨h1, (searchSub_isSome_iff _ _).mp hs⟩
  by_cases hp : strPrefix (chars "---\n") contents
  · cases he : searchSub (chars "\n---\n") contents with
    | some e =>
        have hhas : hasHeaderBlock contents := hiff.mpr ⟨hp, by simp [he]⟩
        simp only [readContents, hp, if_true, he]
        constructor
        · constructor
          · intro h; exact absurd h (Option.some_ne_none _)
          · intro hn; exact absurd hhas hn
        · intro h; exact absurd h (Option.some_ne_none _)
    | none =>
        have hnot : ¬ hasHeaderBlock contents := by
          intro hb
          have hs := (hiff.mp hb).2
          rw [he] at hs; exact absurd hs (by simp)
        simp only [readContents, hp, if_true, he]
        exact ⟨⟨fun _ => hnot, fun _ => trivial⟩, fun _ => trivial⟩
  · have hnot : ¬ hasHeaderBlock contents := by
      intro hb; exact hp (hiff.mp hb).1
    simp only [readContents, hp, Bool.false_eq_true, if_false]
    exact ⟨⟨fun _ => hnot, fun _ => trivial⟩, fun _ => trivial⟩

/-- Witness for `readContents_metadata_null_iff` at a concrete input with
no header block. -/
theorem readContents_metadata_null_iff_witness :
    (readContents (fun _ => none) (chars "plain text")).mainText
      = chars "plain text" :=
  (readContents_metadata_null_iff (fun _ => none) (chars "plain text")).2 rfl

/-! ## Template substitution: `fillTemplate` / `getURL`
(src/heckle.js lines 92-99)

```js
function fillTemplate(tpl, vars) {
  for (var prop in vars) tpl = tpl.replace("${" + prop + "}", vars[prop]);
  return tpl;
}
function getURL(config, post) {
  return fillTemplate(config.postLink, post);
}
```

`String.prototype.replace` with a *string* pattern replaces only the
first occurrence, and processes `$`-escapes (`$$`, `$&`, dollar-backtick,
dollar-apostrophe; `$n` stays literal since a string pattern has no
capture groups) in the replacement value. -/

/-- Split `s` around the first occurrence of `pat`:
`some (a, b)` with `s = a ++ pat ++ b` and `a` shortest, else `none`. -/
def splitFirst (pat : Str) : Str → Option (Str × Str)
  | [] => if pat = [] then some ([], []) else none
  | c :: rest =>
      if strPrefix pat (c :: rest) then some ([], (c :: rest).drop pat.length)
      else (splitFirst pat rest).map (fun p => (c :: p.1, p.2))

/-- ECMA-262 GetSubstitution for a string pattern (no capture groups):
`$$` yields `$`, `$&` the matched text, dollar-backtick the text before
the match, dollar-apostrophe the text after it; any other `$` sequence is
literal. -/
def getSubstitution (matched before after : Str) : Str → Str
  | [] => []
  | [c] => [c]
  | c :: d :: rest2 =>
      if c = '$' then
        if d = '$' then '$' :: getSubstitution matched before after rest2
        else if d = '&' then matched ++ getSubstitution matched before after rest2
        else if d = Char.ofNat 96 then before ++ getSubstitution matched before after rest2
        else if d = Char.ofNat 39 then after ++ getSubstitution matched before after rest2
        else c :: getSubstitution matched before after (d :: rest2)
      else c :: getSubstitution matched before after (d :: rest2)

/-- JS `s.replace(pat, repl)` with string pattern and string replacement:
replace the first occurrence only; no occurrence leaves `s` unchanged. -/
def jsReplaceFirst (s pat repl : Str) : Str :=
  match splitFirst pat s with
  | none => s
  | some (a, b) => a ++ getSubstitution pat a b repl ++ b

/-- The token `"${" + prop + "}"` built by `fillTemplate`. -/
def token (prop : String) : Str :=
  chars "$\x7b" ++ chars prop ++ chars "\x7d"

/-- `fillTemplate`: one `replace` per property of `vars`, in enumeration
order (values already coerced to strings). -/
def fillTemplate (tpl : Str) (vars : List (String × Str)) : Str :=
  vars.foldl (fun t pv => jsReplaceFirst t (token pv.1) pv.2) tpl

/-- JS string coercion of a record value: identity on strings, the
external coercion otherwise. -/
def pvStr (E : Externals) : PVal → Str
  | .str s => s
  | v => E.pvToString v

/-- A record viewed as the string-valued variables `fillTemplate` reads
from it (`for (var prop in vars)` with `vars[prop]` coerced). -/
def stringifyRecord (E : Externals) (r : JsRecord) : List (String × Str) :=
  r.map (fun kv => (kv.1, pvStr E kv.2))

/-- The build configuration (after `readConfig` merged the defaults). -/
structure Config where
  postLink : Str
  postFileName : Str
  exclude : List Str

/-- `getURL`: fill the configured post-link template from the post. -/
def getURL (E : Externals) (config : Config) (post : JsRecord) : Str :=
  fillTemplate config.postLink (stringifyRecord E post)

/-- `getSubstitution` is the identity on replacement values containing no
dollar sign. -/
theorem getSubstitution_no_dollar (m b a : Str) :
    ∀ v : Str, '$' ∉ v → getSubstitution m b a v = v
  | [], _ => rfl
  | [c], _ => rfl
  | c :: d :: rest, h => by
      have hc : ¬ (c = '$') := fun hc => h (by simp [hc])
      have hrec := getSubstitution_no_dollar m b a (d :: rest)
        (fun hm => h (List.mem_cons_of_mem _ hm))
      simp only [getSubstitution, hc, if_false]
      rw [hrec]

/-- `splitFirst` returns `none` exactly when the pattern does not occur. -/
theorem splitFirst_eq_none_iff (pat s : Str) :
    splitFirst pat s = none ↔ ∀ a b, s ≠ a ++ pat ++ b := by
  induction s with
  | nil =>
      simp only [splitFirst]
      by_cases hp : pat = []
      · simp only [hp, if_true]
        constructor
        · intro h; exact absurd h (by simp)
        · intro h; exact absurd (h [] [] (by simp)).elim id
      · simp only [hp, if_false, true_iff]
        intro a b hab
        have := congrArg List.length hab
        simp only [List.length_nil, List.length_append] at this
        exact hp (List.length_eq_zero.mp (by omega))
  | cons c rest ih =>
      simp only [splitFirst]
      by_cases hp : strPrefix pat (c :: rest)
      · simp only [hp, if_true]
        constructor
        · intro h; exact absurd h (by simp)
        · intro h
          rcases List.isPrefixOf_iff_prefix.mp hp with ⟨post, hpost⟩
          exact absurd (h [] post (by simpa using hpost.symm)).elim id
      · have hmap : ((splitFirst pat rest).map
            (fun p => (c :: p.1, p.2)) = none) ↔ splitFirst pat rest = none := by
          cases splitFirst pat rest <;> simp
        simp only [hp, Bool.false_eq_true, if_false, hmap, ih]
        constructor
        · intro h a b hab
          cases a with
          | nil =>
              apply hp
              simp only [List.nil_append] at hab
              exact List.isPrefixOf_iff_prefix.mpr ⟨b, by simp [hab]⟩
          | cons d a' =>
              have := congrArg List.tail hab
              simp at this
              exact h a' b (by rw [this, List.append_assoc])
        · intro h a b hab
          exact h (c :: a) b (by simp [hab])

/-- `splitFirst` splits at the first occurrence: if `a` is a shortest
prefix preceding an occurrence of `pat`, the split is `(a, b)`. -/
theorem splitFirst_first (pat : Str) :
    ∀ a b : Str,
      (∀ a' b', a' ++ pat ++ b' = a ++ pat ++ b → a.length ≤ a'.length) →
      splitFirst pat (a ++ pat ++ b) = some (a, b)
  | [], b, _ => by
      simp only [List.nil_append]
      cases hs : pat ++ b with
      | nil =>
          rcases List.append_eq_nil.mp hs with ⟨h1, h2⟩
          rw [h1, h2]
          rfl
      | cons c rest =>
          have hp : strPrefix pat (c :: rest) = true :=
            List.isPrefixOf_iff_prefix.mpr ⟨b, hs⟩
          have hdrop : (c :: rest).drop pat.length = b := by
            rw [← hs]; exact List.drop_left pat b
          simp only [splitFirst, hp, if_true, hdrop]
  | c :: a', b, hmin => by
      have hstep : (c :: a') ++ pat ++ b = c :: (a' ++ pat ++ b) := by simp
      have hne : strPrefix pat (c :: (a' ++ pat ++ b)) = false := by
        apply eq_false_of_ne_true
        intro hp
        rcases List.isPrefixOf_iff_prefix.mp hp with ⟨post, hpost⟩
        have := hmin [] post (by simpa using hpost)
        simp at this
      have hrec := splitFirst_first pat a' b (by
        intro a'' b'' heq
        have := hmin (c :: a'') b'' (by simp [heq])
        simpa using this)
      rw [hstep]
      have hunf : splitFirst pat (c :: (a' ++ pat ++ b))
          = (splitFirst pat (a' ++ pat ++ b)).map (fun p => (c :: p.1, p.2)) := by
        simp only [splitFirst, hne, Bool.false_eq_true, if_false]
      rw [hunf, hrec]
      rfl

/-- Counterexample to C2 as stated: with `postLink`-style template
`"${name}/${name}"` and a record having field `name = "x"`, the code
replaces only the first occurrence of the token (JS `String.replace` with
a string pattern), leaving `"x/${name}"`, not `"x/x"`. -/
theorem fillTemplate_repeated_token_counterexample :
    fillTemplate (chars "$\x7bname\x7d/$\x7bname\x7d") [("name", chars "x")]
        = chars "x/$\x7bname\x7d" ∧
      chars "x/$\x7bname\x7d" ≠ chars "x/x" := by
  constructor
  · rfl
  · decide

/-- C2 (amended): in each `${fieldName}` replacement only the *first*
occurrence of the token is substituted (with the field's string value,
assuming it contains no `$`-escape); later occurrences of the same token,
and every token whose fieldName is not a field of the record, are left
literally in place without error. -/
theorem fillTemplate_amended :
    (∀ tpl vars, (∀ pv ∈ vars, ∀ a b : Str, tpl ≠ a ++ token pv.1 ++ b) →
      fillTemplate tpl vars = tpl) ∧
    (∀ (p : String) (v a b : Str), '$' ∉ v →
      (∀ a' b', a' ++ token p ++ b' = a ++ token p ++ b →
        a.length ≤ a'.length) →
      fillTemplate (a ++ token p ++ b) [(p, v)] = a ++ v ++ b) := by
  constructor
  · intro tpl vars
    induction vars generalizing tpl with
    | nil => intro _; rfl
    | cons pv rest ih =>
        intro h
        have h1 : splitFirst (token pv.1) tpl = none :=
          (splitFirst_eq_none_iff _ _).mpr (h pv (by simp))
        simp only [fillTemplate, List.foldl_cons, jsReplaceFirst, h1]
        exact ih tpl (fun q hq => h q (List.mem_cons_of_mem _ hq))
  · intro p v a b hd hmin
    have hsp := splitFirst_first (token p) a b hmin
    simp only [fillTemplate, List.foldl_cons, List.foldl_nil, jsReplaceFirst, hsp]
    rw [getSubstitution_no_dollar _ _ _ v hd]

/-- Witness for `fillTemplate_amended` at concrete inputs: an unmatched
token survives untouched, and a matched token at the start of the
template is replaced by the field value. -/
theorem fillTemplate_amended_witness :
    fillTemplate (chars "static page") [("name", chars "x")]
        = chars "static page" ∧
      fillTemplate ([] ++ token "name" ++ chars ".html") [("name", chars "x")]
        = [] ++ chars "x" ++ chars ".html" := by
  constructor
  · exact fillTemplate_amended.1 (chars "static page") [("name", chars "x")]
      (by
        intro pv hpv a b hab
        have hpv' : pv = ("name", chars "x") := by simpa using hpv
        subst hpv'
        have hlen := congrArg List.length hab
        have hmem : '$' ∈ chars "static page" := by
          rw [hab]; simp [token, chars]
        revert hmem; decide)
  · exact fillTemplate_amended.2 "name" (chars "x") [] (chars ".html")
      (by decide) (fun _ _ _ => Nat.zero_le _)

/-! ## Post collector: `readPosts` (src/heckle.js lines 39-67)

```js
function readPosts(config) {
  var postsDir = "_posts/";
  var posts = [];
  if (!fs.existsSync(postsDir)) return posts;
  fs.readdirSync(postsDir).forEach(function(file) {
    var d = file.match(/^(\d{4})-(\d\d?)-(\d\d?)-(.+)\.(md|markdown|link|html)$/);
    if (!d) return;
    var contents = readContents(fs.readFileSync(postsDir + file, "utf8"));
    var post = contents.frontMatter || {};
    post.date = new Date(d[1], d[2] - 1, d[3]);
    post.name = d[4];
    if (!post.tags) post.tags = [];
    if (!post.tags.forEach && post.tags.split) post.tags = post.tags.split(/\s+/);
    var extension = d[5];
    if (extension == "link") {
      var escd = Mold.prototype.escapeHTML(post.url);
      post.content = "<p>Read this post at <a href=\"" + escd + "\">" + escd + "</a>.</p>";
      post.isLink = true;
    } else {
      post.content = (extension == "md" || extension == "markdown") ?
        renderMarkdown(contents.mainText) :
        contents.mainText;
      post.url = getURL(config, post);
    }
    posts.push(post);
  });
  posts.sort(function(a, b){return b.date - a.date;});
  return posts;
}
```

The filesystem is abstracted as the list of `(filename, contents)` pairs
of the `_posts/` directory, in `readdirSync` order. -/

/-- JS `\d`: an ASCII decimal digit. -/
def isDig (c : Char) : Bool := c.isDigit

/-- Match `(\d{4})` at the start: exactly four digits, returning the
captured group and the rest. -/
def parse4Digits : Str → Option (Str × Str)
  | a :: b :: c :: d :: rest =>
      if isDig a && isDig b && isDig c && isDig d then some ([a, b, c, d], rest)
      else none
  | _ => none

/-- Match `(\d\d?)-` at the start (greedy two digits, backtracking to
one).  When two digits are followed by `-` the one-digit alternative
cannot also match (the second character would have to be both a digit and
`-`), so the committed choice below is exactly the regex's behavior. -/
def parseSep2 : Str → Option (Str × Str)
  | a :: b :: rest =>
      if isDig a then
        if isDig b then
          match rest with
          | h :: t => if h = '-' then some ([a, b], t) else none
          | [] => none
        else if b = '-' then some ([a], rest) else none
      else none
  | _ => none

/-- Split at the last `.`: `some (before, after)`.  Because the extension
alternatives contain no dot and the pattern is anchored at `$`, the `\.`
of `(.+)\.(md|markdown|link|html)$` can only match the last dot of the
string, the greedy `(.+)` taking everything before it. -/
def splitAtLastDot (s : Str) : Option (Str × Str) :=
  match (s.reverse).findIdx? (fun c => c = '.') with
  | none => none
  | some i => some (((s.reverse).drop (i + 1)).reverse, ((s.reverse).take i).reverse)

/-- The extensions accepted by the post-filename pattern. -/
def postExts : List Str := [chars "md", chars "markdown", chars "link", chars "html"]

/-- The post filename pattern
`/^(\d{4})-(\d\d?)-(\d\d?)-(.+)\.(md|markdown|link|html)$/`: returns the
five captured groups `(year, month, day, slug, extension)` or `none`. -/
def parseFileName (file : Str) : Option (Str × Str × Str × Str × Str) := do
  let (y, r1) ← parse4Digits file
  let r2 ← (match r1 with | '-' :: t => some t | _ => none)
  let (m, r3) ← parseSep2 r2
  let (d, r4) ← parseSep2 r3
  let (slug, ext) ← splitAtLastDot r4
  if slug ≠ [] ∧ ext ∈ postExts then some (y, m, d, slug, ext) else none

/-- Numeric value of a digit-group capture (JS `ToNumber` of a digit
string, as coerced by the `Date` constructor and by `d[2] - 1`). -/
def digitsToInt (s : Str) : Int :=
  ((s.foldl (fun n c => n * 10 + (c.toNat - 48)) 0 : Nat) : Int)

/-- JS `String(x)` for a possibly-undefined property value
(`String(undefined)` is `"undefined"`). -/
def optStr (E : Externals) : Option PVal → Str
  | some v => pvStr E v
  | none => chars "undefined"

/-- Split on runs of whitespace, `split(/\s+/)`: delimiters are maximal
nonempty runs of whitespace; leading and trailing runs produce empty
pieces, exactly as in JS.  Whitespace is modelled as space, tab, CR, LF
(the `\s` classes relevant to YAML scalar values). -/
def isWs (c : Char) : Bool := c = ' ' || c = '\t' || c = '\n' || c = '\r'

/-- Consume chars into the current piece, starting a new piece at each
maximal whitespace run. -/
def splitWsAux (cur : Str) : Str → List Str
  | [] => [cur.reverse]
  | c :: rest =>
      if isWs c then
        if rest.isEmpty then [cur.reverse, []]
        else match rest with
          | d :: rest2 =>
              if isWs d then splitWsAux cur (d :: rest2)
              else cur.reverse :: splitWsAux [] (d :: rest2)
          | [] => [cur.reverse, []]
      else splitWsAux (c :: cur) rest

/-- JS `s.split(/\s+/)`. -/
def splitWs (s : Str) : List Str := splitWsAux [] s

/-- The two tags-normalization statements of the loop body:
`if (!post.tags) post.tags = [];` then
`if (!post.tags.forEach && post.tags.split) post.tags = post.tags.split(/\s+/);`
(`forEach` exists exactly on arrays, `split` exactly on strings, so the
second condition selects string-valued `tags`). -/
def ensureTags (post : JsRecord) : JsRecord :=
  if truthy (lookupField post "tags") then post
  else setField post "tags" (.list [])

/-- Second normalization statement: string-valued `tags` is split on
whitespace. -/
def splitStringTags (post : JsRecord) : JsRecord :=
  match lookupField post "tags" with
  | some (.str s) => setField post "tags" (.list ((splitWs s).map .str))
  | _ => post

/-- Both tags-normalization statements in sequence. -/
def normalizeTags (post : JsRecord) : JsRecord :=
  splitStringTags (ensureTags post)

/-- One iteration of the `readPosts` loop body for a single directory
entry: `none` when the filename does not match the pattern (the entry is
silently skipped), otherwise the constructed post record. -/
def readPost (E : Externals) (config : Config) (fname contents : Str) :
    Option JsRecord :=
  match parseFileName fname with
  | none => none
  | some (y, m, d, slug, ext) =>
      let rc := readContents E.yamlLoad contents
      let post := rc.frontMatter.getD []
      let post := setField post "date"
        (.date (digitsToInt y) (digitsToInt m - 1) (digitsToInt d))
      let post := setField post "name" (.str slug)
      let post := normalizeTags post
      if ext = chars "link" then
        let escd := E.escapeHTML (optStr E (lookupField post "url"))
        let post := setField post "content"
          (.str (chars "<p>Read this post at <a href=\"" ++ escd ++
            chars "\">" ++ escd ++ chars "</a>.</p>"))
        let post := setField post "isLink" (.bool true)
        some post
      else
        let content := if ext = chars "md" || ext = chars "markdown"
          then E.renderMarkdown rc.mainText else rc.mainText
        let post := setField post "content" (.str content)
        let post := setField post "url" (.str (getURL E config post))
        some post

/-- Millisecond value of a post's `date` (always a `Date` for collected
posts; the black-box `dateMs` carries the JS calendar arithmetic). -/
def postDateMs (E : Externals) (post : JsRecord) : Int :=
  match lookupField post "date" with
  | some (.date y m d) => E.dateMs y m d
  | _ => 0

/-- `readPosts` over the `_posts/` listing: skip non-matching names,
build each post, then sort by the comparator
`function(a, b){return b.date - a.date;}` (descending date; stable as in
modern JS engines). -/
def readPosts (E : Externals) (config : Config) (files : List (Str × Str)) :
    List JsRecord :=
  (files.filterMap (fun f => readPost E config f.1 f.2)).mergeSort
    (fun a b => postDateMs E b ≤ postDateMs E a)

/-- Reading a field after `setField`: the written key yields the new
value, any other key is unaffected. -/
theorem lookupField_setField (r : JsRecord) (k k' : String) (v : PVal) :
    lookupField (setField r k v) k' = if k = k' then some v else lookupField r k' := by
  induction r with
  | nil =>
      simp only [setField, lookupField]
  | cons kv rest ih =>
      obtain ⟨k₀, v₀⟩ := kv
      simp only [setField]
      by_cases h0 : k₀ = k
      · subst h0
        simp only [if_pos rfl, lookupField]
        by_cases h : k₀ = k' <;> simp [h]
      · simp only [if_neg h0, lookupField]
        by_cases h1 : k₀ = k'
        · subst h1
          have : ¬ (k = k₀) := fun h => h0 h.symm
          simp [this]
        · simp [h1, ih]

/-- `ensureTags` only touches the `tags` field. -/
theorem lookupField_ensureTags (p : JsRecord) (k : String)
    (hk : ¬ (k = "tags")) :
    lookupField (ensureTags p) k = lookupField p k := by
  have hk' : ¬ ("tags" = k) := fun h => hk h.symm
  unfold ensureTags
  by_cases ht : truthy (lookupField p "tags")
  · rw [if_pos ht]
  · rw [if_neg ht]
    simp [lookupField_setField, hk']

/-- `splitStringTags` only touches the `tags` field. -/
theorem lookupField_splitStringTags (p : JsRecord) (k : String)
    (hk : ¬ (k = "tags")) :
    lookupField (splitStringTags p) k = lookupField p k := by
  have hk' : ¬ ("tags" = k) := fun h => hk h.symm
  unfold splitStringTags
  cases h : lookupField p "tags" with
  | none => rfl
  | some v =>
      cases v with
      | str s => simp [lookupField_setField, hk']
      | num n => rfl
      | bool b => rfl
      | date y m d => rfl
      | list xs => rfl
      | null => rfl

/-- `normalizeTags` only touches the `tags` field. -/
theorem lookupField_normalizeTags (p : JsRecord) (k : String)
    (hk : ¬ (k = "tags")) :
    lookupField (normalizeTags p) k = lookupField p k := by
  unfold normalizeTags
  rw [lookupField_splitStringTags _ _ hk, lookupField_ensureTags _ _ hk]

/-- C5: for every post file whose name matches the
`<4-digit-year>-<1-2-digit-month>-<1-2-digit-day>-<slug>.<ext>` pattern,
the collected post's `date` is `new Date(year, month - 1, day)` built
exactly from the three numeric filename groups (month zero-based), and
any `date` field in the front matter is overwritten. -/
theorem readPost_date_from_filename (E : Externals) (config : Config)
    (fname contents : Str) (y m d slug ext : Str) (post : JsRecord)
    (hp : parseFileName fname = some (y, m, d, slug, ext))
    (hr : readPost E config fname contents = some post) :
    lookupField post "date"
      = some (.date (digitsToInt y) (digitsToInt m - 1) (digitsToInt d)) := by
  unfold readPost at hr
  rw [hp] at hr
  simp only at hr
  by_cases hext : ext = chars "link"
  · rw [if_pos hext] at hr
    simp only [Option.some.injEq] at hr
    subst hr
    simp [lookupField_setField, lookupField_normalizeTags]
  · rw [if_neg hext] at hr
    simp only [Option.some.injEq] at hr
    subst hr
    simp [lookupField_setField, lookupField_normalizeTags]

/-- Externals used by concrete witnesses: identity renderer and escaper,
a constant YAML loader. -/
def mkE (y : Str → Option JsRecord) : Externals where
  yamlLoad := y
  renderMarkdown := fun s => s
  escapeHTML := fun s => s
  pvToString := fun _ => []
  dateMs := fun _ _ _ => 0

/-- The `defaults` object of src/heckle.js lines 80-83 as a full config
(no `exclude` configured). -/
def defaultConfig : Config where
  postLink := chars "$\x7bname\x7d.html"
  postFileName := chars "$\x7burl\x7d"
  exclude := []

/-- Witness for `readPost_date_from_filename`: the post collected from
`2024-3-5-hello.md` carries `new Date(2024, 2, 5)` even though its front
matter sets `date: 1999`. -/
theorem readPost_date_from_filename_witness :
    lookupField ((readPost (mkE (fun _ => some [("date", .str (chars "1999"))]))
        defaultConfig (chars "2024-3-5-hello.md") (chars "---\ndate: 1999\n---\nhi")).getD [])
      "date" = some (.date 2024 2 5) := by
  have h := readPost_date_from_filename
    (mkE (fun _ => some [("date", .str (chars "1999"))])) defaultConfig
    (chars "2024-3-5-hello.md") (chars "---\ndate: 1999\n---\nhi")
    (chars "2024") (chars "3") (chars "5") (chars "hello") (chars "md")
    ((readPost (mkE (fun _ => some [("date", .str (chars "1999"))]))
        defaultConfig (chars "2024-3-5-hello.md") (chars "---\ndate: 1999\n---\nhi")).getD [])
    (by rfl) (by rfl)
  simpa using h

/-! ## Post emission (src/heckle.js lines 158-163)

```js
posts.forEach(function(post) {
  if (post.isLink) return;
  var path = "_site/" + fillTemplate(config.postFileName, post);
  ensureDirectories(path);
  fs.writeFileSync(path, getLayout(post.layout || "post.html", includes)(post), "utf8");
});
```
-/

/-- The output paths the post-emission loop writes, in order: one
`"_site/" + fillTemplate(config.postFileName, post)` per post whose
`isLink` is falsy; truthy `isLink` short-circuits the iteration before
any path is formed. -/
def emittedPostPaths (E : Externals) (config : Config)
    (posts : List JsRecord) : List Str :=
  posts.filterMap (fun post =>
    if truthy (lookupField post "isLink") then none
    else some (chars "_site/" ++
      fillTemplate config.postFileName (stringifyRecord E post)))

/-- Posts with truthy `isLink` contribute nothing to the emitted paths:
dropping them from the collection leaves the write list unchanged. -/
theorem emittedPostPaths_filter (E : Externals) (config : Config) :
    ∀ posts : List JsRecord,
      emittedPostPaths E config posts
        = emittedPostPaths E config
            (posts.filter (fun p => !truthy (lookupField p "isLink"))) := by
  intro posts
  induction posts with
  | nil => rfl
  | cons p rest ih =>
      by_cases h : truthy (lookupField p "isLink")
      · simp only [emittedPostPaths, List.filterMap_cons, List.filter_cons, h,
          if_true, Bool.not_true, Bool.false_eq_true, if_false] at ih ⊢
        exact ih
      · have h' : truthy (lookupField p "isLink") = false :=
          eq_false_of_ne_true h
        simp only [emittedPostPaths, List.filterMap_cons, List.filter_cons, h',
          Bool.false_eq_true, if_false, Bool.not_false, if_true] at ih ⊢
        rw [ih]

/-- C7: a post collected from a `.link` file is present in the in-memory
collection `site.posts`, with `isLink = true` and `content` equal to the
fixed HTML fragment around the HTML-escaped metadata `url`, yet the
emission loop never writes a path for any link post. -/
theorem linkPost_collected_never_emitted
    (E : Externals) (config : Config) (files : List (Str × Str))
    (fname contents : Str) (y m d slug : Str) (post : JsRecord)
    (hmem : (fname, contents) ∈ files)
    (hp : parseFileName fname = some (y, m, d, slug, chars "link"))
    (hr : readPost E config fname contents = some post) :
    post ∈ readPosts E config files ∧
    lookupField post "isLink" = some (.bool true) ∧
    lookupField post "content" = some (.str
      (chars "<p>Read this post at <a href=\"" ++
        E.escapeHTML (optStr E (lookupField
          ((readContents E.yamlLoad contents).frontMatter.getD []) "url")) ++
        chars "\">" ++
        E.escapeHTML (optStr E (lookupField
          ((readContents E.yamlLoad contents).frontMatter.getD []) "url")) ++
        chars "</a>.</p>")) ∧
    (∀ posts : List JsRecord,
      emittedPostPaths E config posts
        = emittedPostPaths E config
            (posts.filter (fun p => !truthy (lookupField p "isLink")))) := by
  have hr2 := hr
  unfold readPost at hr2
  rw [hp] at hr2
  simp only [if_true, Option.some.injEq] at hr2
  subst hr2
  refine ⟨?_, ?_, ?_, emittedPostPaths_filter E config⟩
  · unfold readPosts
    exact ((List.mergeSort_perm _ _).mem_iff).mpr
      (List.mem_filterMap.mpr ⟨(fname, contents), hmem, hr⟩)
  · simp [lookupField_setField]
  · simp [lookupField_setField, lookupField_normalizeTags]

/-- Witness for `linkPost_collected_never_emitted` on a one-file
`_posts/` directory holding `2024-1-2-x.link`. -/
theorem linkPost_collected_never_emitted_witness :
    ((readPost (mkE (fun _ => some [("url", PVal.str (chars "http://x.com"))]))
        defaultConfig (chars "2024-1-2-x.link")
        (chars "---\nurl: http://x.com\n---\n")).getD [])
      ∈ readPosts (mkE (fun _ => some [("url", PVal.str (chars "http://x.com"))]))
          defaultConfig
          [(chars "2024-1-2-x.link", chars "---\nurl: http://x.com\n---\n")] ∧
    lookupField
      ((readPost (mkE (fun _ => some [("url", PVal.str (chars "http://x.com"))]))
        defaultConfig (chars "2024-1-2-x.link")
        (chars "---\nurl: http://x.com\n---\n")).getD []) "isLink"
      = some (.bool true) := by
  have h := linkPost_collected_never_emitted
    (mkE (fun _ => some [("url", PVal.str (chars "http://x.com"))]))
    defaultConfig
    [(chars "2024-1-2-x.link", chars "---\nurl: http://x.com\n---\n")]
    (chars "2024-1-2-x.link") (chars "---\nurl: http://x.com\n---\n")
    (chars "2024") (chars "1") (chars "2") (chars "x")
    ((readPost (mkE (fun _ => some [("url", PVal.str (chars "http://x.com"))]))
        defaultConfig (chars "2024-1-2-x.link")
        (chars "---\nurl: http://x.com\n---\n")).getD [])
    (by simp) (by rfl) (by rfl)
  exact ⟨h.1, h.2.1⟩

/-! ## Tag indexer: `gatherTags` (src/heckle.js lines 69-78)

```js
function gatherTags(posts) {
  var tags = {};
  posts.forEach(function(post) {
    if (post.tags) post.tags.forEach(function(tag) {
      (tags.hasOwnProperty(tag) ? tags[tag] : (tags[tag] = [])).push(post);
    });
    else post.tags = [];
  });
  return tags;
}
```

The `tags` object is modelled as an insertion-ordered association list
from tag string to bucket.  The well-formedness side conditions `tagsWF`
and the per-post `Nodup` hypothesis delimit inputs on which the JS would
not throw (a truthy non-array `tags` has no `forEach`) and on which tag
buckets are duplicate-free; `readPosts` output always satisfies `tagsWF`
for string/array-of-string YAML `tags`. -/

/-- Lookup in the tag map. -/
def lookupTag (tags : List (Str × List JsRecord)) (T : Str) :
    Option (List JsRecord) :=
  match tags with
  | [] => none
  | (t, ps) :: rest => if t = T then some ps else lookupTag rest T

/-- `(tags.hasOwnProperty(tag) ? tags[tag] : (tags[tag] = [])).push(post)`:
append to the existing bucket, or create a fresh bucket (a new key in
insertion order) holding just this post. -/
def addPostToTag (tags : List (Str × List JsRecord)) (tag : Str)
    (post : JsRecord) : List (Str × List JsRecord) :=
  match tags with
  | [] => [(tag, [post])]
  | (t, ps) :: rest =>
      if t = tag then (t, ps ++ [post]) :: rest
      else (t, ps) :: addPostToTag rest tag post

/-- The tag strings of a post's `tags` array (non-array or absent `tags`
yield none; array elements are strings under `tagsWF`). -/
def postTagStrings (post : JsRecord) : List Str :=
  match lookupField post "tags" with
  | some (.list xs) =>
      xs.filterMap (fun v => match v with | .str s => some s | _ => none)
  | _ => []

/-- Is a value a string? -/
def isStrVal : PVal → Bool
  | .str _ => true
  | _ => false

/-- Posts on which `post.tags.forEach` is well defined: `tags` absent, or
an array of strings (the shape `readPosts` produces). -/
def tagsWF (post : JsRecord) : Bool :=
  match lookupField post "tags" with
  | none => true
  | some (.list xs) => xs.all isStrVal
  | some _ => false

/-- `gatherTags`: fold every post into the bucket of each of its tags. -/
def gatherTags (posts : List JsRecord) : List (Str × List JsRecord) :=
  posts.foldl (fun tags post =>
    if truthy (lookupField post "tags") then
      (postTagStrings post).foldl (fun tg tag => addPostToTag tg tag post) tags
    else tags) []

/-- Effect of one `push` on lookups. -/
theorem lookupTag_addPostToTag (tags : List (Str × List JsRecord))
    (tag : Str) (post : JsRecord) (T : Str) :
    lookupTag (addPostToTag tags tag post) T =
      if tag = T then some ((lookupTag tags T).getD [] ++ [post])
      else lookupTag tags T := by
  induction tags with
  | nil =>
      simp only [addPostToTag, lookupTag]
      by_cases h : tag = T <;> simp [h, lookupTag]
  | cons tp rest ih =>
      obtain ⟨t, ps⟩ := tp
      simp only [addPostToTag]
      by_cases h1 : t = tag
      · subst h1
        simp only [if_pos rfl, lookupTag]
        by_cases h2 : t = T
        · subst h2; simp [lookupTag]
        · simp [lookupTag, h2]
      · simp only [if_neg h1, lookupTag]
        by_cases h2 : t = T
        · subst h2
          have : ¬ (tag = t) := fun h => h1 h.symm
          simp [lookupTag, this]
        · simp [lookupTag, h2, ih]

/-- Effect of one post's inner `forEach` on lookups, for duplicate-free
tag lists. -/
theorem lookupTag_foldTags (post : JsRecord) :
    ∀ ts : List Str, ts.Nodup →
      ∀ (tags : List (Str × List JsRecord)) (T : Str),
        lookupTag (ts.foldl (fun tg t => addPostToTag tg t post) tags) T =
          if T ∈ ts then some ((lookupTag tags T).getD [] ++ [post])
          else lookupTag tags T := by
  intro ts
  induction ts with
  | nil => intro _ tags T; simp
  | cons t ts' ih =>
      intro hnd tags T
      obtain ⟨htn, hnd'⟩ := List.nodup_cons.mp hnd
      simp only [List.foldl_cons]
      rw [ih hnd' (addPostToTag tags t post) T]
      by_cases hT : T ∈ ts'
      · have htT : ¬ (t = T) := fun h => htn (h ▸ hT)
        simp [hT, lookupTag_addPostToTag, htT]
      · by_cases htT : t = T
        · subst htT
          simp [hT, lookupTag_addPostToTag]
        · have : ¬ (T ∈ t :: ts') := by
            intro hmem
            rcases List.mem_cons.mp hmem with h | h
            · exact htT h.symm
            · exact hT h
          simp [hT, lookupTag_addPostToTag, htT, this]

/-- The whole fold of `gatherTags`, with an arbitrary accumulator. -/
theorem lookupTag_gatherFold :
    ∀ posts : List JsRecord,
      (∀ p ∈ posts, tagsWF p = true) →
      (∀ p ∈ posts, (postTagStrings p).Nodup) →
      ∀ (tags : List (Str × List JsRecord)) (T : Str),
        lookupTag (posts.foldl (fun tg post =>
            if truthy (lookupField post "tags") then
              (postTagStrings post).foldl
                (fun tg2 tag => addPostToTag tg2 tag post) tg
            else tg) tags) T =
          if ∃ p ∈ posts, T ∈ postTagStrings p
          then some ((lookupTag tags T).getD [] ++
            posts.filter (fun p => decide (T ∈ postTagStrings p)))
          else lookupTag tags T := by
  intro posts
  induction posts with
  | nil => intro _ _ tags T; simp
  | cons p rest ih =>
      intro hwf hnd tags T
      have hwfp : tagsWF p = true := hwf p (by simp)
      have hndp : (postTagStrings p).Nodup := hnd p (by simp)
      have hwf' : ∀ q ∈ rest, tagsWF q = true :=
        fun q hq => hwf q (List.mem_cons_of_mem _ hq)
      have hnd' : ∀ q ∈ rest, (postTagStrings q).Nodup :=
        fun q hq => hnd q (List.mem_cons_of_mem _ hq)
      simp only [List.foldl_cons]
      cases hfield : lookupField p "tags" with
      | none =>
          have hts : postTagStrings p = [] := by
            unfold postTagStrings; rw [hfield]
          rw [if_neg (show ¬ (truthy none = true) from by decide)]
          rw [ih hwf' hnd' tags T]
          have hiff2 : (∃ q ∈ p :: rest, T ∈ postTagStrings q)
              ↔ (∃ q ∈ rest, T ∈ postTagStrings q) := by
            constructor
            · rintro ⟨q, hq, hqT⟩
              rcases List.mem_cons.mp hq with h | h
              · rw [h, hts] at hqT; cases hqT
              · exact ⟨q, h, hqT⟩
            · rintro ⟨q, hq, hqT⟩
              exact ⟨q, List.mem_cons_of_mem _ hq, hqT⟩
          have hfil : List.filter (fun q => decide (T ∈ postTagStrings q)) (p :: rest)
              = List.filter (fun q => decide (T ∈ postTagStrings q)) rest := by
            rw [List.filter_cons]
            simp [hts]
          rw [hfil]
          simp only [hiff2]
      | some v =>
          cases v with
          | list xs =>
              rw [if_pos (show truthy (some (PVal.list xs)) = true from rfl)]
              rw [ih hwf' hnd'
                ((postTagStrings p).foldl (fun tg2 tag => addPostToTag tg2 tag p) tags) T]
              rw [lookupTag_foldTags p (postTagStrings p) hndp tags T]
              by_cases hpT : T ∈ postTagStrings p
              · by_cases hrT : ∃ q ∈ rest, T ∈ postTagStrings q
                · have hex : ∃ q ∈ p :: rest, T ∈ postTagStrings q :=
                    ⟨p, by simp, hpT⟩
                  simp only [hpT, if_true, hrT, if_true, hex, List.filter_cons,
                    decide_eq_true hpT]
                  simp
                · have hex : ∃ q ∈ p :: rest, T ∈ postTagStrings q :=
                    ⟨p, by simp, hpT⟩
                  have hfil : rest.filter (fun q => decide (T ∈ postTagStrings q)) = [] := by
                    rw [List.filter_eq_nil_iff]
                    intro q hq
                    simp only [decide_eq_true_eq]
                    intro hqT
                    exact hrT ⟨q, hq, hqT⟩
                  simp only [hpT, if_true, hrT, if_false, hex, List.filter_cons,
                    decide_eq_true hpT, hfil]
                  simp
              · by_cases hrT : ∃ q ∈ rest, T ∈ postTagStrings q
                · have hex : ∃ q ∈ p :: rest, T ∈ postTagStrings q := by
                    rcases hrT with ⟨q, hq, hqT⟩
                    exact ⟨q, List.mem_cons_of_mem _ hq, hqT⟩
                  have hdec : decide (T ∈ postTagStrings p) = false := by
                    simp [hpT]
                  simp only [hpT, if_false, hrT, if_true, hex, List.filter_cons, hdec,
                    Bool.false_eq_true, if_false]
                  simp
                · have hex : ¬ ∃ q ∈ p :: rest, T ∈ postTagStrings q := by
                    rintro ⟨q, hq, hqT⟩
                    rcases List.mem_cons.mp hq with h | h
                    · exact hpT (h ▸ hqT)
                    · exact hrT ⟨q, h, hqT⟩
                  simp only [hpT, if_false, hrT, if_false, hex, if_false]
          | str s => simp [tagsWF, hfield] at hwfp
          | num n => simp [tagsWF, hfield] at hwfp
          | bool b => simp [tagsWF, hfield] at hwfp
          | date y m d => simp [tagsWF, hfield] at hwfp
          | null => simp [tagsWF, hfield] at hwfp

/-- Counterexample to C6 as stated: a post that declares the same tag
twice (`tags: a a` splits to `["a", "a"]`) is pushed into the `a` bucket
once per occurrence, so the bucket holds the post twice while "exactly
the posts whose tags include a" holds it once. -/
theorem gatherTags_duplicate_tag_counterexample :
    lookupTag (gatherTags
        [[("tags", PVal.list [.str (chars "a"), .str (chars "a")])]])
      (chars "a")
      = some [[("tags", PVal.list [.str (chars "a"), .str (chars "a")])],
              [("tags", PVal.list [.str (chars "a"), .str (chars "a")])]] ∧
    lookupTag (gatherTags
        [[("tags", PVal.list [.str (chars "a"), .str (chars "a")])]])
      (chars "a")
      ≠ some [[("tags", PVal.list [.str (chars "a"), .str (chars "a")])]] := by
  constructor
  · rfl
  · intro h
    rw [show lookupTag (gatherTags
        [[("tags", PVal.list [.str (chars "a"), .str (chars "a")])]])
      (chars "a")
      = some [[("tags", PVal.list [.str (chars "a"), .str (chars "a")])],
              [("tags", PVal.list [.str (chars "a"), .str (chars "a")])]]
      from rfl] at h
    simp at h

/-- C6 (amended): for posts whose `tags` are well-formed arrays of
strings with no duplicate tag inside one post, the tag index maps each
tag `T` occurring in some post to exactly the posts whose tags include
`T`, in collection order; a tag appearing in no post is not a key, and a
post with no (or empty) tags contributes to no bucket.  (A duplicated tag
inside one post would insert that post once per occurrence.) -/
theorem gatherTags_tag_index (posts : List JsRecord)
    (hwf : ∀ p ∈ posts, tagsWF p = true)
    (hnd : ∀ p ∈ posts, (postTagStrings p).Nodup) :
    ∀ T : Str,
      lookupTag (gatherTags posts) T =
        if ∃ p ∈ posts, T ∈ postTagStrings p
        then some (posts.filter (fun p => decide (T ∈ postTagStrings p)))
        else none := by
  intro T
  unfold gatherTags
  rw [lookupTag_gatherFold posts hwf hnd [] T]
  simp [lookupTag]

/-- Witness for `gatherTags_tag_index`: two posts, tags `["a"]` and
`["a", "b"]`; the `a` bucket holds both in order, the `b` bucket only the
second, and `c` is not a key. -/
theorem gatherTags_tag_index_witness :
    lookupTag (gatherTags
        [[("tags", PVal.list [.str (chars "a")])],
         [("tags", PVal.list [.str (chars "a"), .str (chars "b")])]])
      (chars "b")
      = some [[("tags", PVal.list [.str (chars "a"), .str (chars "b")])]] ∧
    lookupTag (gatherTags
        [[("tags", PVal.list [.str (chars "a")])],
         [("tags", PVal.list [.str (chars "a"), .str (chars "b")])]])
      (chars "c") = none := by
  constructor
  · rw [gatherTags_tag_index
      [[("tags", PVal.list [.str (chars "a")])],
       [("tags", PVal.list [.str (chars "a"), .str (chars "b")])]]
      (by decide) (by decide) (chars "b")]
    rfl
  · rw [gatherTags_tag_index
      [[("tags", PVal.list [.str (chars "a")])],
       [("tags", PVal.list [.str (chars "a"), .str (chars "b")])]]
      (by decide) (by decide) (chars "c")]
    rfl

/-! ## Layout resolution: `getLayout` (src/heckle.js lines 136-148)

```js
var layouts = {};
function getLayout(name, mold) {
  if (name.indexOf(".") == -1) name = name + ".html";
  if (layouts.hasOwnProperty(name)) return layouts[name];
  var tmpl = Handlebars.compile(fs.readFileSync("_layouts/" + name, "utf8"));

  var mergedTmpl = partialTemplate(tmpl, ctx);

  mergedTmpl.filename = name;
  layouts[name] = mergedTmpl;

  return mergedTmpl;
}
```

`ctx` on the `partialTemplate(tmpl, ctx)` line is a free variable: the
only `ctx` in the program is a local of `generate`, which is not an
enclosing scope of `getLayout`, and no global `ctx` is ever defined.
Reading an undefined variable throws a `ReferenceError`, after the
`fs.readFileSync`/`Handlebars.compile` of the cache-miss path and before
`layouts[name]` is assigned.  The embedding therefore returns an error on
every cache miss, threading the cache and a log of `_layouts/` reads. -/

/-- A cached compiled layout: the wrapped render function carrying its
resolved filename (the rendering behavior itself is the black-box
template engine). -/
structure LayoutFn where
  filename : Str

/-- Build-scoped layout state: the `layouts` cache object and the log of
`_layouts/` files read (one entry per `fs.readFileSync`). -/
structure LayoutSt where
  cache : List (Str × LayoutFn)
  reads : List Str

/-- JS runtime errors surfaced by the embedding. -/
inductive JsError where
  | referenceError (name : String)

/-- Cache lookup (`layouts.hasOwnProperty(name)` / `layouts[name]`). -/
def lookupLayout (c : List (Str × LayoutFn)) (n : Str) : Option LayoutFn :=
  match c with
  | [] => none
  | (k, fn) :: rest => if k = n then some fn else lookupLayout rest n

/-- `if (name.indexOf(".") == -1) name = name + ".html";` -/
def normalizeLayoutName (name : Str) : Str :=
  if searchSub (chars ".") name = none then name ++ chars ".html" else name

/-- `getLayout`: cache hit returns the cached function; a cache miss
reads and compiles the layout file and then throws the `ctx`
ReferenceError before caching anything. -/
def getLayout (name : Str) (st : LayoutSt) :
    Except JsError LayoutFn × LayoutSt :=
  let name := normalizeLayoutName name
  match lookupLayout st.cache name with
  | some fn => (.ok fn, st)
  | none =>
      (.error (.referenceError "ctx"),
        { st with reads := st.reads ++ [chars "_layouts/" ++ name] })

/-- C3 (code bug): within one build, calling `getLayout` twice with the
same name never returns a render function and reads/compiles the
`_layouts` file twice: each call evaluates the out-of-scope `ctx` and
throws a ReferenceError before `layouts[name]` is assigned, so the cache
stays empty and the second call misses again. -/
theorem getLayout_ctx_reference_error (name : Str) :
    (getLayout name { cache := [], reads := [] }).1
        = .error (.referenceError "ctx") ∧
    (getLayout name (getLayout name { cache := [], reads := [] }).2).1
        = .error (.referenceError "ctx") ∧
    (getLayout name (getLayout name { cache := [], reads := [] }).2).2.reads
        = [chars "_layouts/" ++ normalizeLayoutName name,
           chars "_layouts/" ++ normalizeLayoutName name] ∧
    (getLayout name (getLayout name { cache := [], reads := [] }).2).2.cache
        = [] := by
  refine ⟨rfl, rfl, ?_, rfl⟩
  simp [getLayout, lookupLayout]

/-! ## Site emitter: `walkDir` (src/heckle.js lines 164-197)

```js
function isExcluded(path) {
  return (config.exclude || []).some(function (exclude) {
    return path.slice(2).indexOf(exclude) === 0;
  });
}
function walkDir(dir) {
  fs.readdirSync(dir).forEach(function(fname) {
    if (/^[_\.]/.test(fname)) return;
    var file = dir + fname;
    if (isExcluded(file)) return;
    if (fs.statSync(file).isDirectory()) {
      walkDir(file + "/");
    } else {
      var out = "_site/" + file;
      ensureDirectories(out);
      var contents = readContents(fs.readFileSync(file, "utf8"));
      if (contents.frontMatter) {
        var doc = contents.frontMatter;
        var layout = getLayout(doc.layout || "default.html", includes);
        doc.content = /\.(md|markdown)$/.test(fname) ?
          renderMarkdown(contents.mainText) :
          contents.mainText;
        doc.name = fname.match(/^(.*?)\.[^\.]+$/)[1];
        doc.url = file;
        out = out.replace(/\.(md|markdown)$/, layout.filename.match(/(\.\w+|)$/)[1]);
        fs.writeFileSync(out, layout(doc), "utf8");
      } else {
        util.copyFileSync(file, out);
      }
    }
  });
}
walkDir("./");
```

Directories are modelled as ordered entry lists (readdir order); the walk
returns the sequence of filesystem actions it performs.  For a file with
front matter, line 182 calls `getLayout`; the `layouts` cache is never
populated (no execution reaches the assignment on line 145, because line
142 evaluates the out-of-scope `ctx` first — see the layout-resolution
theorems), so this call always takes the cache-miss path and throws
before `doc.content` is set, before the line-188 extension rewrite and
before the write on line 189.  The walk therefore aborts at the first
front-matter document; files without front matter that the walk reaches
earlier are copied verbatim. -/

/-- A source tree node. -/
inductive FSNode where
  | file (contents : Str)
  | dir (entries : List (Str × FSNode))

/-- `/^[_\.]/`: name begins with underscore or dot. -/
def startsUD (fname : Str) : Bool :=
  match fname with
  | [] => false
  | c :: _ => c = '_' || c = '.'

/-- `path.slice(2).indexOf(exclude) === 0` for some configured exclusion:
drop the first two characters of the path, then prefix-compare. -/
def isExcluded (config : Config) (path : Str) : Bool :=
  config.exclude.any (fun ex => strPrefix ex (path.drop 2))

/-- One filesystem effect of the walk body. -/
inductive FsAction where
  | copy (out : Str) (contents : Str)
  | crash

/-- The non-directory branch of the walk body (lines 176-192).  A file
with no front matter is copied byte-for-byte to the mirrored output
path.  A file with front matter reaches
`getLayout(doc.layout || "default.html", includes)` at line 182, which
throws on every call (the line-142 `ctx` ReferenceError on the
always-taken cache-miss path; a TypeError already inside `indexOf` for a
truthy non-string `layout`), so the build aborts before lines 183-189
execute: nothing is rendered or written for such a file. -/
def walkFile (E : Externals) (file fname contents : Str) : FsAction :=
  let out := chars "_site/" ++ file
  let rc := readContents E.yamlLoad contents
  match rc.frontMatter with
  | some _ => .crash
  | none => .copy out contents

mutual

/-- The walk body for one directory entry. -/
def walkEntry (E : Externals) (config : Config) (dir : Str)
    (fname : Str) (node : FSNode) : List FsAction :=
  if startsUD fname then []
  else
    if isExcluded config (dir ++ fname) then []
    else match node with
      | .dir entries => walkEntries E config (dir ++ fname ++ chars "/") entries
      | .file contents => [walkFile E (dir ++ fname) fname contents]

/-- `walkDir`: fold the body over the directory listing in order. -/
def walkEntries (E : Externals) (config : Config) (dir : Str) :
    List (Str × FSNode) → List FsAction
  | [] => []
  | (fname, node) :: rest =>
      walkEntry E config dir fname node ++ walkEntries E config dir rest

end

mutual

/-- Remove every underscore- or dot-prefixed entry, at every depth. -/
def pruneNode : FSNode → FSNode
  | .file c => .file c
  | .dir entries => .dir (pruneEntries entries)

/-- Remove underscore- and dot-prefixed entries from a listing,
recursively. -/
def pruneEntries : List (Str × FSNode) → List (Str × FSNode)
  | [] => []
  | (fname, node) :: rest =>
      if startsUD fname then pruneEntries rest
      else (fname, pruneNode node) :: pruneEntries rest

end

mutual

/-- Walking a pruned entry equals walking the original entry. -/
theorem walkEntry_prune (E : Externals) (config : Config) (dir fname : Str)
    (node : FSNode) :
    walkEntry E config dir fname (pruneNode node)
      = walkEntry E config dir fname node := by
  cases node with
  | file c => rfl
  | dir entries =>
      unfold walkEntry pruneNode
      by_cases h1 : startsUD fname
      · rw [if_pos h1, if_pos h1]
      · rw [if_neg h1, if_neg h1]
        by_cases h2 : isExcluded config (dir ++ fname)
        · rw [if_pos h2, if_pos h2]
        · rw [if_neg h2, if_neg h2]
          exact walkEntries_prune E config (dir ++ fname ++ chars "/") entries

/-- Walking a pruned listing equals walking the original listing. -/
theorem walkEntries_prune (E : Externals) (config : Config) (dir : Str)
    (entries : List (Str × FSNode)) :
    walkEntries E config dir (pruneEntries entries)
      = walkEntries E config dir entries := by
  cases entries with
  | nil => rfl
  | cons e rest =>
      obtain ⟨fname, node⟩ := e
      by_cases h1 : startsUD fname
      · have hskip : walkEntry E config dir fname node = [] := by
          unfold walkEntry; rw [if_pos h1]
        unfold pruneEntries
        rw [if_pos h1]
        rw [walkEntries_prune E config dir rest]
        show walkEntries E config dir rest
          = walkEntry E config dir fname node ++ walkEntries E config dir rest
        rw [hskip]
        rfl
      · unfold pruneEntries
        rw [if_neg h1]
        show walkEntry E config dir fname (pruneNode node)
            ++ walkEntries E config dir (pruneEntries rest)
          = walkEntry E config dir fname node ++ walkEntries E config dir rest
        rw [walkEntry_prune E config dir fname node,
          walkEntries_prune E config dir rest]

end

/-- C10: at every level of the source-tree walk, entries whose name begins
with an underscore or a dot are skipped entirely — the actions of the
walk are unchanged when all such entries, at any depth, are removed from
the tree, so they are neither copied nor rendered nor recursed into. -/
theorem walk_skips_underscore_dot (E : Externals) (config : Config)
    (dir : Str) (entries : List (Str × FSNode)) :
    walkEntries E config dir entries
      = walkEntries E config dir (pruneEntries entries) :=
  (walkEntries_prune E config dir entries).symm

/-- C4 (code bug): a non-directory file with front matter reached by the
tree walk is never written anywhere — the walk aborts at layout
resolution (line 182), because `getLayout` always throws on its
cache-miss path (the line-142 out-of-scope `ctx`) and its cache is never
populated, all before an output path is formed or an extension rewritten. -/
theorem walk_frontmatter_document_crashes (E : Externals) (config : Config)
    (dir fname contents : Str) (doc : JsRecord)
    (hfm : (readContents E.yamlLoad contents).frontMatter = some doc)
    (hskip : startsUD fname = false)
    (hexc : isExcluded config (dir ++ fname) = false) :
    walkEntry E config dir fname (.file contents) = [.crash] := by
  unfold walkEntry
  rw [if_neg (by simp [hskip]), if_neg (by simp [hexc])]
  simp only [walkFile, hfm]

/-- Witness for `walk_frontmatter_document_crashes`: walking `about.html`
with front matter `layout: post.xml` at the top level aborts; in
particular no file appears at `_site/./about.xml` (or anywhere else). -/
theorem walk_frontmatter_document_crashes_witness :
    walkEntry (mkE (fun s => if s = chars "layout: post.xml\n"
        then some [("layout", PVal.str (chars "post.xml"))] else none))
        defaultConfig (chars "./") (chars "about.html")
        (.file (chars "---\nlayout: post.xml\n---\nhi"))
      = [.crash] :=
  walk_frontmatter_document_crashes
    (mkE (fun s => if s = chars "layout: post.xml\n"
      then some [("layout", PVal.str (chars "post.xml"))] else none))
    defaultConfig (chars "./") (chars "about.html")
    (chars "---\nlayout: post.xml\n---\nhi")
    [("layout", PVal.str (chars "post.xml"))]
    rfl rfl rfl

/-! ## Context merging: `partialTemplate` (src/heckle.js lines 118-126)

```js
function partialTemplate(tmpl, ctx) {
  return function (newCtx) {
    var finalCtx = JSON.parse(JSON.stringify(ctx));
    Object.keys(newCtx).forEach(function (key) {
      finalCtx[key] = newCtx[key];
    });
    return tmpl(finalCtx);
  };
}
```

Aliasing and mutation are observable here, so this component is embedded
against a small heap: objects live at numeric addresses, `JSON.stringify`
produces a pure tree (dropping function-valued properties, serializing
`Date`s through their `toJSON` string, throwing on cycles — modelled by
fuel exhaustion), and `JSON.parse` allocates only fresh addresses.
Arrays are modelled as objects carrying their element properties, which
is adequate for the copying/aliasing properties at issue.  `dj` is
`Date.prototype.toJSON` (timezone-dependent, external). -/

/-- Heap values: immediates, function values, and references. -/
inductive HV where
  | str (s : Str)
  | num (n : Int)
  | bool (b : Bool)
  | null
  | date (y m d : Int)
  | fn (id : Nat)
  | ref (a : Nat)

/-- A heap object: ordered own properties. -/
abbrev HObj := List (String × HV)

/-- The heap: object at address `i` is the `i`-th entry. -/
abbrev Heap := List HObj

/-- The JSON text produced by `stringify`, as a tree. -/
inductive JTree where
  | str (s : Str)
  | num (n : Int)
  | bool (b : Bool)
  | null
  | obj (fields : List (String × JTree))

/-- Property read on a heap object. -/
def lookupHF (o : HObj) (k : String) : Option HV :=
  match o with
  | [] => none
  | (k₀, v₀) :: rest => if k₀ = k then some v₀ else lookupHF rest k

/-- Property write on a heap object (overwrite in place or append). -/
def setHF (o : HObj) (k : String) (v : HV) : HObj :=
  match o with
  | [] => [(k, v)]
  | (k₀, v₀) :: rest =>
      if k₀ = k then (k₀, v) :: rest else (k₀, v₀) :: setHF rest k v

/-- Field read on a JSON tree object. -/
def lookupTF (fs : List (String × JTree)) (k : String) : Option JTree :=
  match fs with
  | [] => none
  | (k₀, t₀) :: rest => if k₀ = k then some t₀ else lookupTF rest k

/-- The object at an address (`getD []` is never hit on valid refs). -/
def getObj (h : Heap) (a : Nat) : HObj := (h.get? a).getD []

/-- In-place mutation of the object at an address. -/
def hsetObj (h : Heap) (a : Nat) (o : HObj) : Heap := h.set a o

/-- References appearing in a value are below `n`. -/
def wfHV (n : Nat) : HV → Prop
  | .ref a => a < n
  | _ => True

/-- All field values of an object have references below `n`. -/
def wfObj (n : Nat) (o : HObj) : Prop := ∀ kv ∈ o, wfHV n kv.2

/-- A closed heap: every object only references existing addresses. -/
def wfHeap (h : Heap) : Prop := ∀ o ∈ h, wfObj h.length o

/-- `JSON.stringify` of one object's properties, given a serializer `f`
for the field values: function-valued properties are skipped, the rest
serialized in order. -/
def stringifyObjAux (f : HV → Option JTree) : HObj → Option (List (String × JTree))
  | [] => some []
  | (k, v) :: rest =>
      match v with
      | .fn _ => stringifyObjAux f rest
      | v => (f v).bind fun t =>
          (stringifyObjAux f rest).map (fun fs => (k, t) :: fs)

/-- `JSON.stringify` of a value (`fuel` bounds reference-chasing depth —
running out models the TypeError on circular structures; any acyclic
structure serializes fully once `fuel` exceeds its reference depth).
Function values never reach here from an object: they are dropped at the
field level. -/
def stringifyHV (dj : Int → Int → Int → Str) (h : Heap) :
    Nat → HV → Option JTree
  | _, .str s => some (.str s)
  | _, .num n => some (.num n)
  | _, .bool b => some (.bool b)
  | _, .null => some .null
  | _, .date y m d => some (.str (dj y m d))
  | _, .fn _ => none
  | 0, .ref _ => none
  | fuel + 1, .ref a =>
      match h.get? a with
      | none => none
      | some o => (stringifyObjAux (fun v => stringifyHV dj h fuel v) o).map .obj

mutual

/-- `JSON.parse`: rebuild the tree in the heap, allocating only fresh
addresses (appended at the end). -/
def parseJT : Heap → JTree → Heap × HV
  | h, .str s => (h, .str s)
  | h, .num n => (h, .num n)
  | h, .bool b => (h, .bool b)
  | h, .null => (h, .null)
  | h, .obj fields =>
      let r := parseFields h fields
      (r.1 ++ [r.2], .ref r.1.length)

/-- Parse a field list left to right, threading the heap. -/
def parseFields : Heap → List (String × JTree) → Heap × HObj
  | h, [] => (h, [])
  | h, (k, t) :: rest =>
      let r1 := parseJT h t
      let r2 := parseFields r1.1 rest
      (r2.1, (k, r1.2) :: r2.2)

end

/-- Follow a path of property names from a value. -/
def readPath (h : Heap) : HV → List String → Option HV
  | v, [] => some v
  | .ref a, k :: ks => (h.get? a).bind fun o =>
      (lookupHF o k).bind fun v => readPath h v ks
  | _, _ :: _ => none

/-- `Object.keys(newCtx).forEach(key => finalCtx[key] = newCtx[key])`. -/
def overlayFields (base upd : HObj) : HObj :=
  upd.foldl (fun o kv => setHF o kv.1 kv.2) base

/-- The body of the closure `partialTemplate(tmpl, ctx)` returns, run on
`newCtx`, up to the point where `tmpl` is applied: deep-copy the base
context through JSON, then overlay the call-specific keys by mutating the
fresh copy.  Returns the new heap and the address of `finalCtx` (`none`
when `stringify` throws on a cyclic base). -/
def mergeCtxHeap (dj : Int → Int → Int → Str) (fuel : Nat) (h : Heap)
    (ctxAddr : Nat) (newCtx : HObj) : Option (Heap × Nat) :=
  match stringifyHV dj h fuel (.ref ctxAddr) with
  | none => none
  | some t =>
      match parseJT h t with
      | (h', .ref a) =>
          some (hsetObj h' a (overlayFields (getObj h' a) newCtx), a)
      | _ => none

/-- A successful heap-object lookup is a binding of the object. -/
theorem lookupHF_mem (o : HObj) (k : String) (v : HV) :
    lookupHF o k = some v → (k, v) ∈ o := by
  induction o with
  | nil => intro h; cases h
  | cons kv rest ih =>
      obtain ⟨k₀, v₀⟩ := kv
      intro h
      simp only [lookupHF] at h
      by_cases hk : k₀ = k
      · rw [if_pos hk] at h
        subst hk
        simp only [Option.some.injEq] at h
        subst h
        exact List.mem_cons_self _ _
      · rw [if_neg hk] at h
        exact List.mem_cons_of_mem _ (ih h)

/-- Heap reads below the original length ignore an appended extension. -/
theorem get?_append_lt (h ext : Heap) (i : Nat) (hi : i < h.length) :
    (h ++ ext).get? i = h.get? i := by
  rw [List.get?_eq_getElem?, List.get?_eq_getElem?, List.getElem?_append]
  rw [if_pos hi]

/-- Heap reads at a different address ignore a `set`. -/
theorem get?_set_ne (h : Heap) (b i : Nat) (o : HObj) (hne : b ≠ i) :
    (h.set b o).get? i = h.get? i := by
  rw [List.get?_eq_getElem?, List.get?_eq_getElem?]
  exact List.getElem?_set_ne hne

mutual

/-- `parseJT` only appends to the heap. -/
theorem parseJT_extends (h : Heap) (t : JTree) :
    ∃ ext, (parseJT h t).1 = h ++ ext := by
  cases t with
  | str s => exact ⟨[], by simp [parseJT]⟩
  | num n => exact ⟨[], by simp [parseJT]⟩
  | bool b => exact ⟨[], by simp [parseJT]⟩
  | null => exact ⟨[], by simp [parseJT]⟩
  | obj fields =>
      obtain ⟨ext, hext⟩ := parseFields_extends h fields
      exact ⟨ext ++ [(parseFields h fields).2], by simp [parseJT, hext]⟩

/-- `parseFields` only appends to the heap. -/
theorem parseFields_extends (h : Heap) (fs : List (String × JTree)) :
    ∃ ext, (parseFields h fs).1 = h ++ ext := by
  cases fs with
  | nil => exact ⟨[], by simp [parseFields]⟩
  | cons f rest =>
      obtain ⟨k, t⟩ := f
      obtain ⟨e1, he1⟩ := parseJT_extends h t
      obtain ⟨e2, he2⟩ := parseFields_extends (parseJT h t).1 rest
      refine ⟨e1 ++ e2, ?_⟩
      show (parseFields (parseJT h t).1 rest).1 = h ++ (e1 ++ e2)
      rw [he2, he1, List.append_assoc]

end

mutual

/-- The value `parseJT` returns references only freshly allocated
addresses. -/
theorem parseJT_ref_fresh (h : Heap) (t : JTree) :
    ∀ a, (parseJT h t).2 = .ref a → h.length ≤ a := by
  cases t with
  | str s => intro a ha; simp [parseJT] at ha
  | num n => intro a ha; simp [parseJT] at ha
  | bool b => intro a ha; simp [parseJT] at ha
  | null => intro a ha; simp [parseJT] at ha
  | obj fields =>
      intro a ha
      simp only [parseJT, HV.ref.injEq] at ha
      obtain ⟨ext, hext⟩ := parseFields_extends h fields
      rw [← ha, hext]
      simp

/-- Every field value `parseFields` builds references only freshly
allocated addresses. -/
theorem parseFields_fresh (h : Heap) (fs : List (String × JTree)) :
    ∀ kv ∈ (parseFields h fs).2, ∀ b, kv.2 = .ref b → h.length ≤ b := by
  cases fs with
  | nil => intro kv hkv; simp [parseFields] at hkv
  | cons f rest =>
      intro kv hkv b hb
      simp only [parseFields, List.mem_cons] at hkv
      rcases hkv with hkv | hkv
      · subst hkv
        exact parseJT_ref_fresh h f.2 b hb
      · obtain ⟨e1, he1⟩ := parseJT_extends h f.2
        have := parseFields_fresh (parseJT h f.2).1 rest kv hkv b hb
        rw [he1] at this
        simp only [List.length_append] at this
        omega

end

/-- Reading a path only touches addresses reachable from the start, so
two heaps agreeing below `n` (with all refs below `n` staying below `n`)
read identically from any value bounded by `n`. -/
theorem readPath_agree (n : Nat) (h₁ h₂ : Heap)
    (hag : ∀ i, i < n → h₁.get? i = h₂.get? i)
    (hwf : ∀ i o, i < n → h₁.get? i = some o → wfObj n o) :
    ∀ (p : List String) (v : HV), wfHV n v →
      readPath h₁ v p = readPath h₂ v p := by
  intro p
  induction p with
  | nil => intro v _; cases v <;> rfl
  | cons k ks ih =>
      intro v hv
      cases v with
      | ref a =>
          have ha : a < n := hv
          have hga := hag a ha
          simp only [readPath]
          rw [hga]
          cases ho : h₂.get? a with
          | none => rfl
          | some o =>
              have hwfo : wfObj n o := hwf a o ha (by rw [hga, ho])
              show (lookupHF o k).bind (fun v => readPath h₁ v ks)
                = (lookupHF o k).bind (fun v => readPath h₂ v ks)
              cases hl : lookupHF o k with
              | none => rfl
              | some v' =>
                  have hv' : wfHV n v' := hwfo (k, v') (lookupHF_mem o k v' hl)
                  show readPath h₁ v' ks = readPath h₂ v' ks
                  exact ih v' hv'
      | str s => rfl
      | num m => rfl
      | bool b => rfl
      | null => rfl
      | date y m d => rfl
      | fn i => rfl

/-- Reading a field after `setHF`. -/
theorem lookupHF_setHF (o : HObj) (k k' : String) (v : HV) :
    lookupHF (setHF o k v) k' = if k = k' then some v else lookupHF o k' := by
  induction o with
  | nil => simp only [setHF, lookupHF]
  | cons kv rest ih =>
      obtain ⟨k₀, v₀⟩ := kv
      simp only [setHF]
      by_cases h0 : k₀ = k
      · subst h0
        simp only [if_pos rfl, lookupHF]
        by_cases h : k₀ = k' <;> simp [h]
      · simp only [if_neg h0, lookupHF]
        by_cases h1 : k₀ = k'
        · subst h1
          have : ¬ (k = k₀) := fun h => h0 h.symm
          simp [this]
        · simp [h1, ih]

/-- Keys not overlaid keep their copied value. -/
theorem lookupHF_overlay_none (upd : HObj) :
    ∀ (base : HObj) (k : String), lookupHF upd k = none →
      lookupHF (overlayFields base upd) k = lookupHF base k := by
  induction upd with
  | nil => intro base k _; rfl
  | cons kv rest ih =>
      obtain ⟨k₀, v₀⟩ := kv
      intro base k hk
      simp only [lookupHF] at hk
      by_cases h0 : k₀ = k
      · rw [if_pos h0] at hk; cases hk
      · rw [if_neg h0] at hk
        show lookupHF (overlayFields (setHF base k₀ v₀) rest) k = lookupHF base k
        rw [ih (setHF base k₀ v₀) k hk, lookupHF_setHF]
        rw [if_neg h0]

/-- Serializing an object pointwise with equal serializers is equal. -/
theorem stringifyObjAux_congr (f g : HV → Option JTree) :
    ∀ o : HObj, (∀ kv ∈ o, f kv.2 = g kv.2) →
      stringifyObjAux f o = stringifyObjAux g o := by
  intro o
  induction o with
  | nil => intro _; rfl
  | cons kv rest ih =>
      obtain ⟨k, v⟩ := kv
      intro hfg
      have hv := hfg (k, v) (List.mem_cons_self _ _)
      have htail : ∀ kv ∈ rest, f kv.2 = g kv.2 :=
        fun kv2 hkv2 => hfg kv2 (List.mem_cons_of_mem _ hkv2)
      cases v with
      | fn i => exact ih htail
      | ref a => simp only [stringifyObjAux]; rw [hv, ih htail]
      | str s => simp only [stringifyObjAux]; rw [hv, ih htail]
      | num m => simp only [stringifyObjAux]; rw [hv, ih htail]
      | bool b => simp only [stringifyObjAux]; rw [hv, ih htail]
      | null => simp only [stringifyObjAux]; rw [hv, ih htail]
      | date y m d => simp only [stringifyObjAux]; rw [hv, ih htail]

/-- `stringify` only reads addresses below `n`, so two heaps agreeing
below `n` (with refs closed below `n`) serialize a bounded value
identically. -/
theorem stringifyHV_agree (dj : Int → Int → Int → Str) (n : Nat)
    (h₁ h₂ : Heap)
    (hag : ∀ i, i < n → h₁.get? i = h₂.get? i)
    (hwf : ∀ i o, i < n → h₁.get? i = some o → wfObj n o) :
    ∀ (fuel : Nat) (v : HV), wfHV n v →
      stringifyHV dj h₁ fuel v = stringifyHV dj h₂ fuel v := by
  intro fuel
  induction fuel with
  | zero => intro v _; cases v <;> rfl
  | succ f ihf =>
      intro v hv
      cases v with
      | ref a =>
          have ha : a < n := hv
          have hga := hag a ha
          simp only [stringifyHV]
          rw [hga]
          cases ho : h₂.get? a with
          | none => rfl
          | some o =>
              have hwfo : wfObj n o := hwf a o ha (by rw [hga, ho])
              show Option.map JTree.obj
                  (stringifyObjAux (fun v => stringifyHV dj h₁ f v) o)
                = Option.map JTree.obj
                  (stringifyObjAux (fun v => stringifyHV dj h₂ f v) o)
              rw [stringifyObjAux_congr _ _ o
                (fun kv hkv => ihf kv.2 (hwfo kv hkv))]
      | str s => rfl
      | num m => rfl
      | bool b => rfl
      | null => rfl
      | date y m d => rfl
      | fn i => rfl

/-- C8: the merged context `partialTemplate` builds is a fresh object —
its address and every copied top-level reference lie outside the base
heap, so no top-level key aliases the shared SiteContext; building it
and then mutating it (at its own or any fresh address) leaves every
field path of the shared context unchanged; and after such mutations the
base context still serializes identically, so a second document's merge
sees exactly the data the first one saw. -/
theorem partialTemplate_context_isolation
    (dj : Int → Int → Int → Str) (fuel : Nat) (h : Heap) (r : Nat)
    (newCtx : HObj) (h' : Heap) (a : Nat)
    (hwfh : wfHeap h) (hr : r < h.length)
    (hm : mergeCtxHeap dj fuel h r newCtx = some (h', a)) :
    h.length ≤ a ∧
    (∀ k v, lookupHF (getObj h' a) k = some v → lookupHF newCtx k = none →
      ∀ b, v = .ref b → h.length ≤ b) ∧
    (∀ p, readPath h' (.ref r) p = readPath h (.ref r) p) ∧
    (∀ b o p, h.length ≤ b →
      readPath (hsetObj h' b o) (.ref r) p = readPath h (.ref r) p) ∧
    (∀ b o f2, h.length ≤ b →
      stringifyHV dj (hsetObj h' b o) f2 (.ref r)
        = stringifyHV dj h f2 (.ref r)) := by
  unfold mergeCtxHeap at hm
  cases hs : stringifyHV dj h fuel (.ref r) with
  | none => rw [hs] at hm; cases hm
  | some t =>
      rw [hs] at hm
      have ht : ∃ tf, t = .obj tf := by
        cases fuel with
        | zero => simp [stringifyHV] at hs
        | succ f =>
            simp only [stringifyHV] at hs
            cases ho : h.get? r with
            | none => rw [ho] at hs; cases hs
            | some o =>
                rw [ho] at hs
                have hs' : Option.map JTree.obj
                    (stringifyObjAux (fun v => stringifyHV dj h f v) o)
                    = some t := hs
                cases hso : stringifyObjAux (fun v => stringifyHV dj h f v) o with
                | none => rw [hso] at hs'; cases hs'
                | some tf =>
                    rw [hso] at hs'
                    have hs2 : some (JTree.obj tf) = some t := hs'
                    exact ⟨tf, (Option.some.inj hs2).symm⟩
      obtain ⟨tf, rfl⟩ := ht
      have hm2 : some (hsetObj ((parseFields h tf).1 ++ [(parseFields h tf).2])
          (parseFields h tf).1.length
          (overlayFields (getObj ((parseFields h tf).1 ++ [(parseFields h tf).2])
            (parseFields h tf).1.length) newCtx),
          (parseFields h tf).1.length) = some (h', a) := hm
      simp only [Option.some.injEq, Prod.mk.injEq] at hm2
      obtain ⟨hh', ha⟩ := hm2
      subst ha
      obtain ⟨ext, hext⟩ := parseFields_extends h tf
      have hlen : h.length ≤ (parseFields h tf).1.length := by
        rw [hext]; simp
      have hlt : (parseFields h tf).1.length
          < ((parseFields h tf).1 ++ [(parseFields h tf).2]).length := by
        simp
      have hgetfs : ((parseFields h tf).1 ++ [(parseFields h tf).2]).get?
            (parseFields h tf).1.length
          = some (parseFields h tf).2 := by
        rw [List.get?_eq_getElem?]
        exact List.getElem?_concat_length _ _
      have hgetObjA : getObj ((parseFields h tf).1 ++ [(parseFields h tf).2])
            (parseFields h tf).1.length
          = (parseFields h tf).2 := by
        unfold getObj; rw [hgetfs]; rfl
      -- agreement of h' with h below h.length
      have hag : ∀ i, i < h.length → h'.get? i = h.get? i := by
        intro i hi
        rw [← hh']
        unfold hsetObj
        rw [get?_set_ne _ _ _ _ (by omega)]
        have : (parseFields h tf).1 ++ [(parseFields h tf).2]
            = h ++ (ext ++ [(parseFields h tf).2]) := by
          rw [hext, List.append_assoc]
        rw [this, get?_append_lt _ _ _ hi]
      have hwf' : ∀ i o, i < h.length → h'.get? i = some o → wfObj h.length o := by
        intro i o hi hio
        rw [hag i hi] at hio
        exact hwfh o (List.get?_mem hio)
      refine ⟨hlen, ?_, ?_, ?_, ?_⟩
      · intro k v hlk hnone b hb
        rw [← hh'] at hlk
        have hova : getObj (hsetObj ((parseFields h tf).1 ++ [(parseFields h tf).2])
              (parseFields h tf).1.length
              (overlayFields (getObj ((parseFields h tf).1 ++ [(parseFields h tf).2])
                (parseFields h tf).1.length) newCtx))
              (parseFields h tf).1.length
            = overlayFields (getObj ((parseFields h tf).1 ++ [(parseFields h tf).2])
                (parseFields h tf).1.length) newCtx := by
          unfold getObj hsetObj
          rw [List.get?_eq_getElem?, List.getElem?_set_self hlt]
          rfl
        rw [hova, hgetObjA, lookupHF_overlay_none newCtx _ k hnone] at hlk
        exact parseFields_fresh h tf (k, v) (lookupHF_mem _ k v hlk) b hb
      · intro p
        exact readPath_agree h.length h' h hag hwf' p (.ref r) hr
      · intro b o p hb
        have hag2 : ∀ i, i < h.length → (hsetObj h' b o).get? i = h.get? i := by
          intro i hi
          unfold hsetObj
          rw [get?_set_ne _ _ _ _ (by omega)]
          exact hag i hi
        have hwf2 : ∀ i o2, i < h.length → (hsetObj h' b o).get? i = some o2 →
            wfObj h.length o2 := by
          intro i o2 hi hio
          rw [hag2 i hi] at hio
          exact hwfh o2 (List.get?_mem hio)
        exact readPath_agree h.length (hsetObj h' b o) h hag2 hwf2 p (.ref r) hr
      · intro b o f2 hb
        have hag2 : ∀ i, i < h.length → (hsetObj h' b o).get? i = h.get? i := by
          intro i hi
          unfold hsetObj
          rw [get?_set_ne _ _ _ _ (by omega)]
          exact hag i hi
        have hwf2 : ∀ i o2, i < h.length → (hsetObj h' b o).get? i = some o2 →
            wfObj h.length o2 := by
          intro i o2 hi hio
          rw [hag2 i hi] at hio
          exact hwfh o2 (List.get?_mem hio)
        exact stringifyHV_agree dj h.length (hsetObj h' b o) h hag2 hwf2 f2
          (.ref r) hr

instance (n : Nat) (v : HV) : Decidable (wfHV n v) :=
  match v with
  | .ref a => (inferInstance : Decidable (a < n))
  | .str _ => .isTrue trivial
  | .num _ => .isTrue trivial
  | .bool _ => .isTrue trivial
  | .null => .isTrue trivial
  | .date _ _ _ => .isTrue trivial
  | .fn _ => .isTrue trivial

instance (n : Nat) (o : HObj) : Decidable (wfObj n o) := by
  unfold wfObj; infer_instance

instance (h : Heap) : Decidable (wfHeap h) := by
  unfold wfHeap; infer_instance

/-- A two-object heap shaped like heckle's SiteContext: object 0 is the
context (a `site` reference, a function-valued `dateFormat`, a
`Date`-valued `when`), object 1 the nested `site` data. -/
def sampleHeap : Heap :=
  [[("site", HV.ref 1), ("dateFormat", HV.fn 0), ("when", HV.date 2024 2 5)],
   [("title", HV.str (chars "t"))]]

/-- Witness for `partialTemplate_context_isolation` on `sampleHeap`: the
merged context is allocated outside the base heap, and the base context
reads the same nested field afterwards. -/
theorem partialTemplate_context_isolation_witness :
    sampleHeap.length ≤
      ((mergeCtxHeap (fun _ _ _ => chars "D") 3 sampleHeap 0
        [("content", HV.str (chars "c"))]).getD ([], 0)).2 ∧
    readPath ((mergeCtxHeap (fun _ _ _ => chars "D") 3 sampleHeap 0
        [("content", HV.str (chars "c"))]).getD ([], 0)).1
        (.ref 0) ["site", "title"]
      = readPath sampleHeap (.ref 0) ["site", "title"] := by
  have h := partialTemplate_context_isolation (fun _ _ _ => chars "D") 3
    sampleHeap 0 [("content", HV.str (chars "c"))]
    ((mergeCtxHeap (fun _ _ _ => chars "D") 3 sampleHeap 0
      [("content", HV.str (chars "c"))]).getD ([], 0)).1
    ((mergeCtxHeap (fun _ _ _ => chars "D") 3 sampleHeap 0
      [("content", HV.str (chars "c"))]).getD ([], 0)).2
    (by decide) (by decide) (by rfl)
  exact ⟨h.1, h.2.2.1 ["site", "title"]⟩

/-- Splitting a successful serialize-then-cons step. -/
theorem bind_map_cons_eq_some (o1 : Option JTree)
    (o2 : Option (List (String × JTree))) (k0 : String)
    (tf : List (String × JTree)) :
    (o1.bind fun t => o2.map (fun fs => (k0, t) :: fs)) = some tf →
    ∃ t0 tf2, o1 = some t0 ∧ o2 = some tf2 ∧ tf = (k0, t0) :: tf2 := by
  cases o1 with
  | none => intro h; cases h
  | some t0 =>
      cases o2 with
      | none => intro h; cases h
      | some tf2 =>
          intro h
          have h' : some ((k0, t0) :: tf2) = some tf := h
          exact ⟨t0, tf2, rfl, rfl, (Option.some.inj h').symm⟩

/-- Is a heap value a function value? -/
def isFnHV : HV → Bool
  | .fn _ => true
  | _ => false

theorem isFnHV_true (v : HV) : isFnHV v = true → ∃ j, v = .fn j := by
  cases v <;> simp [isFnHV]

/-- Serialization equation for a non-function head field. -/
theorem stringifyObjAux_cons_notfn (f : HV → Option JTree) (k0 : String)
    (v0 : HV) (rest : HObj) (h : isFnHV v0 = false) :
    stringifyObjAux f ((k0, v0) :: rest)
      = (f v0).bind fun t =>
          (stringifyObjAux f rest).map (fun fs => (k0, t) :: fs) := by
  cases v0 <;> first | rfl | simp [isFnHV] at h

/-- Keys absent from the object are absent from its serialization. -/
theorem stringifyObjAux_lookup_notin (f : HV → Option JTree) :
    ∀ (o : HObj) (tf : List (String × JTree)) (k : String),
      stringifyObjAux f o = some tf →
      (∀ kv ∈ o, kv.1 ≠ k) → lookupTF tf k = none := by
  intro o
  induction o with
  | nil =>
      intro tf k hs _
      have hs2 : some ([] : List (String × JTree)) = some tf := hs
      rw [← Option.some.inj hs2]
      rfl
  | cons kv rest ih =>
      obtain ⟨k0, v0⟩ := kv
      intro tf k hs hnotin
      have hk0 : k0 ≠ k := hnotin (k0, v0) (List.mem_cons_self _ _)
      have htail : ∀ kv ∈ rest, kv.1 ≠ k :=
        fun kv2 hkv2 => hnotin kv2 (List.mem_cons_of_mem _ hkv2)
      cases hfn : isFnHV v0 with
      | true =>
          obtain ⟨j, rfl⟩ := isFnHV_true _ hfn
          have hs2 : stringifyObjAux f rest = some tf := hs
          exact ih tf k hs2 htail
      | false =>
          rw [stringifyObjAux_cons_notfn f k0 v0 rest hfn] at hs
          obtain ⟨t0, tf2, h1, h2, rfl⟩ := bind_map_cons_eq_some _ _ _ _ hs
          simp only [lookupTF, if_neg hk0]
          exact ih tf2 k h2 htail

/-- A function-valued property (first binding of its key, keys unique)
is dropped by `stringify`. -/
theorem stringifyObjAux_lookup_fn (f : HV → Option JTree) :
    ∀ (o : HObj) (tf : List (String × JTree)) (k : String) (i : Nat),
      (o.map Prod.fst).Nodup →
      lookupHF o k = some (.fn i) →
      stringifyObjAux f o = some tf → lookupTF tf k = none := by
  intro o
  induction o with
  | nil => intro tf k i _ hl _; cases hl
  | cons kv rest ih =>
      obtain ⟨k0, v0⟩ := kv
      intro tf k i hnd hl hs
      obtain ⟨hk0nin, hndrest⟩ := List.nodup_cons.mp hnd
      simp only [lookupHF] at hl
      by_cases hk0 : k0 = k
      · rw [if_pos hk0] at hl
        have hv0 : v0 = .fn i := Option.some.inj hl
        subst hv0
        subst hk0
        have hs2 : stringifyObjAux f rest = some tf := hs
        refine stringifyObjAux_lookup_notin f rest tf k0 hs2 ?_
        intro kv2 hkv2 hkk
        apply hk0nin
        rw [← hkk]
        exact List.mem_map.mpr ⟨kv2, hkv2, rfl⟩
      · rw [if_neg hk0] at hl
        cases hfn : isFnHV v0 with
        | true =>
            obtain ⟨j, rfl⟩ := isFnHV_true _ hfn
            have hs2 : stringifyObjAux f rest = some tf := hs
            exact ih tf k i hndrest hl hs2
        | false =>
            rw [stringifyObjAux_cons_notfn f k0 v0 rest hfn] at hs
            obtain ⟨t0, tf2, h1, h2, rfl⟩ := bind_map_cons_eq_some _ _ _ _ hs
            simp only [lookupTF, if_neg hk0]
            exact ih tf2 k i hndrest hl h2

/-- A `Date`-valued property is serialized as its `toJSON` string. -/
theorem stringifyObjAux_lookup_date (dj : Int → Int → Int → Str)
    (f : HV → Option JTree)
    (hf : ∀ y m d, f (.date y m d) = some (.str (dj y m d))) :
    ∀ (o : HObj) (tf : List (String × JTree)) (k : String) (y m d : Int),
      lookupHF o k = some (.date y m d) →
      stringifyObjAux f o = some tf →
      lookupTF tf k = some (.str (dj y m d)) := by
  intro o
  induction o with
  | nil => intro tf k y m d hl _; cases hl
  | cons kv rest ih =>
      obtain ⟨k0, v0⟩ := kv
      intro tf k y m d hl hs
      simp only [lookupHF] at hl
      by_cases hk0 : k0 = k
      · rw [if_pos hk0] at hl
        have hv0 : v0 = .date y m d := Option.some.inj hl
        subst hv0
        subst hk0
        rw [stringifyObjAux_cons_notfn f k0 (.date y m d) rest rfl] at hs
        obtain ⟨t0, tf2, h1, h2, rfl⟩ := bind_map_cons_eq_some _ _ _ _ hs
        rw [hf y m d] at h1
        have ht0 : t0 = .str (dj y m d) := (Option.some.inj h1).symm
        simp [lookupTF, ht0]
      · rw [if_neg hk0] at hl
        cases hfn : isFnHV v0 with
        | true =>
            obtain ⟨j, rfl⟩ := isFnHV_true _ hfn
            have hs2 : stringifyObjAux f rest = some tf := hs
            exact ih tf k y m d hl hs2
        | false =>
            rw [stringifyObjAux_cons_notfn f k0 v0 rest hfn] at hs
            obtain ⟨t0, tf2, h1, h2, rfl⟩ := bind_map_cons_eq_some _ _ _ _ hs
            simp only [lookupTF, if_neg hk0]
            exact ih tf2 k y m d hl h2

/-- `Date`s serialize to their `toJSON` string at any fuel. -/
theorem stringifyHV_date (dj : Int → Int → Int → Str) (h : Heap)
    (fuel : Nat) (y m d : Int) :
    stringifyHV dj h fuel (.date y m d) = some (.str (dj y m d)) := by
  cases fuel <;> rfl

/-- `parse` preserves absent keys and string-valued fields. -/
theorem parseFields_lookup (fs : List (String × JTree)) :
    ∀ (h : Heap) (k : String),
      (lookupTF fs k = none → lookupHF (parseFields h fs).2 k = none) ∧
      (∀ s, lookupTF fs k = some (.str s) →
        lookupHF (parseFields h fs).2 k = some (.str s)) := by
  induction fs with
  | nil =>
      intro h k
      exact ⟨fun _ => rfl, fun s hl => by cases hl⟩
  | cons f rest ih =>
      obtain ⟨k0, t0⟩ := f
      intro h k
      constructor
      · intro hl
        simp only [lookupTF] at hl
        by_cases hk0 : k0 = k
        · rw [if_pos hk0] at hl; cases hl
        · rw [if_neg hk0] at hl
          show lookupHF ((k0, (parseJT h t0).2)
              :: (parseFields (parseJT h t0).1 rest).2) k = none
          simp only [lookupHF, if_neg hk0]
          exact ((ih (parseJT h t0).1 k).1) hl
      · intro s hl
        simp only [lookupTF] at hl
        by_cases hk0 : k0 = k
        · rw [if_pos hk0] at hl
          have ht0 : t0 = .str s := Option.some.inj hl
          subst ht0
          show lookupHF ((k0, (parseJT h (.str s)).2)
              :: (parseFields (parseJT h (.str s)).1 rest).2) k
            = some (.str s)
          simp only [lookupHF, if_pos hk0]
          rfl
        · rw [if_neg hk0] at hl
          show lookupHF ((k0, (parseJT h t0).2)
              :: (parseFields (parseJT h t0).1 rest).2) k = some (.str s)
          simp only [lookupHF, if_neg hk0]
          exact ((ih (parseJT h t0).1 k).2) s hl

/-- C9: the wrapped render function copies the base context by
JSON-serializing and re-parsing it before overlaying the call-specific
keys, so every function-valued top-level field of the base context (such
as `dateFormat`) is absent from the context the compiled template
receives, and every `Date`-valued field appears as its `toJSON` string
rather than a `Date`, unless the call-specific context overrides the
key. -/
theorem partialTemplate_json_round_strips
    (dj : Int → Int → Int → Str) (fuel : Nat) (h : Heap) (r : Nat)
    (newCtx : HObj) (h' : Heap) (a : Nat)
    (hnd : ((getObj h r).map Prod.fst).Nodup)
    (hm : mergeCtxHeap dj fuel h r newCtx = some (h', a)) :
    (∀ k i, lookupHF (getObj h r) k = some (.fn i) →
      lookupHF newCtx k = none → lookupHF (getObj h' a) k = none) ∧
    (∀ k y m d, lookupHF (getObj h r) k = some (.date y m d) →
      lookupHF newCtx k = none →
      lookupHF (getObj h' a) k = some (.str (dj y m d))) := by
  unfold mergeCtxHeap at hm
  cases hs : stringifyHV dj h fuel (.ref r) with
  | none => rw [hs] at hm; cases hm
  | some t =>
      rw [hs] at hm
      cases fuel with
      | zero => simp [stringifyHV] at hs
      | succ fl =>
          simp only [stringifyHV] at hs
          cases ho : h.get? r with
          | none => rw [ho] at hs; cases hs
          | some o =>
              rw [ho] at hs
              have hs' : Option.map JTree.obj
                  (stringifyObjAux (fun v => stringifyHV dj h fl v) o)
                  = some t := hs
              cases hso : stringifyObjAux (fun v => stringifyHV dj h fl v) o with
              | none => rw [hso] at hs'; cases hs'
              | some tf =>
                  rw [hso] at hs'
                  have hs2 : some (JTree.obj tf) = some t := hs'
                  have ht := (Option.some.inj hs2).symm
                  subst ht
                  have hm2 : some (hsetObj
                      ((parseFields h tf).1 ++ [(parseFields h tf).2])
                      (parseFields h tf).1.length
                      (overlayFields (getObj
                        ((parseFields h tf).1 ++ [(parseFields h tf).2])
                        (parseFields h tf).1.length) newCtx),
                      (parseFields h tf).1.length) = some (h', a) := hm
                  simp only [Option.some.injEq, Prod.mk.injEq] at hm2
                  obtain ⟨hh', ha⟩ := hm2
                  subst ha
                  have hlt : (parseFields h tf).1.length
                      < ((parseFields h tf).1 ++ [(parseFields h tf).2]).length := by
                    simp
                  have hgetfs : ((parseFields h tf).1
                        ++ [(parseFields h tf).2]).get? (parseFields h tf).1.length
                      = some (parseFields h tf).2 := by
                    rw [List.get?_eq_getElem?]
                    exact List.getElem?_concat_length _ _
                  have hgetObjA : getObj ((parseFields h tf).1
                        ++ [(parseFields h tf).2]) (parseFields h tf).1.length
                      = (parseFields h tf).2 := by
                    unfold getObj; rw [hgetfs]; rfl
                  have hova : getObj h' (parseFields h tf).1.length
                      = overlayFields (parseFields h tf).2 newCtx := by
                    rw [← hh']
                    unfold getObj hsetObj
                    rw [List.get?_eq_getElem?, List.getElem?_set_self hlt]
                    simp only [Option.getD_some]
                    rw [hgetfs]
                    rfl
                  have hobj : getObj h r = o := by
                    unfold getObj; rw [ho]; rfl
                  rw [hobj] at hnd
                  constructor
                  · intro k i hlk hnone
                    rw [hobj] at hlk
                    rw [hova, lookupHF_overlay_none newCtx _ k hnone]
                    have htf := stringifyObjAux_lookup_fn
                      (fun v => stringifyHV dj h fl v) o tf k i hnd hlk hso
                    exact ((parseFields_lookup tf h k).1) htf
                  · intro k y m d hlk hnone
                    rw [hobj] at hlk
                    rw [hova, lookupHF_overlay_none newCtx _ k hnone]
                    have htf := stringifyObjAux_lookup_date dj
                      (fun v => stringifyHV dj h fl v)
                      (fun y2 m2 d2 => stringifyHV_date dj h fl y2 m2 d2)
                      o tf k y m d hlk hso
                    exact ((parseFields_lookup tf h k).2) (dj y m d) htf

/-- Witness for `partialTemplate_json_round_strips` on `sampleHeap`: the
merged context has no `dateFormat` key, and its `when` field is the
`toJSON` string. -/
theorem partialTemplate_json_round_strips_witness :
    lookupHF (getObj ((mergeCtxHeap (fun _ _ _ => chars "D") 3 sampleHeap 0
        [("content", HV.str (chars "c"))]).getD ([], 0)).1
      ((mergeCtxHeap (fun _ _ _ => chars "D") 3 sampleHeap 0
        [("content", HV.str (chars "c"))]).getD ([], 0)).2) "dateFormat"
      = none ∧
    lookupHF (getObj ((mergeCtxHeap (fun _ _ _ => chars "D") 3 sampleHeap 0
        [("content", HV.str (chars "c"))]).getD ([], 0)).1
      ((mergeCtxHeap (fun _ _ _ => chars "D") 3 sampleHeap 0
        [("content", HV.str (chars "c"))]).getD ([], 0)).2) "when"
      = some (.str (chars "D")) := by
  have h := partialTemplate_json_round_strips (fun _ _ _ => chars "D") 3
    sampleHeap 0 [("content", HV.str (chars "c"))]
    ((mergeCtxHeap (fun _ _ _ => chars "D") 3 sampleHeap 0
      [("content", HV.str (chars "c"))]).getD ([], 0)).1
    ((mergeCtxHeap (fun _ _ _ => chars "D") 3 sampleHeap 0
      [("content", HV.str (chars "c"))]).getD ([], 0)).2
    (by decide) (by rfl)
  exact ⟨h.1 "dateFormat" 0 (by rfl) (by rfl),
    h.2 "when" 2024 2 5 (by rfl) (by rfl)⟩
